import Mathlib

/-!
Shallow embedding of the playlist ingestion engine of PyIPTV
(src/pyiptv/m3u_parser.py) and proofs about it.

Text is modelled as `List Char` (`Str`).  Python `bytes` are modelled as
`List Nat` (one `Nat` per byte, values 0..255).  Python dicts that map
string keys to string values are modelled as insertion-ordered association
lists (`Entry`), with Python's update-in-place / append-if-new semantics.
-/

set_option maxRecDepth 10000

namespace PyIPTV

abbrev Str := List Char

/-- Coerce a string literal to the `List Char` representation. -/
def chars (s : String) : Str := s.data

/-- The whitespace characters stripped by Python's `str.strip()` /
matched by `\s`, restricted to the ASCII range (code points 9-13, 28-31
and 32; non-ASCII Unicode whitespace is not needed by any input
considered here). -/
def isPySpace (c : Char) : Bool :=
  c = ' ' ∨ c = '\t' ∨ c = '\n' ∨ c = '\r' ∨ c = Char.ofNat 11 ∨ c = Char.ofNat 12 ∨
  c = Char.ofNat 28 ∨ c = Char.ofNat 29 ∨ c = Char.ofNat 30 ∨ c = Char.ofNat 31

/-- Python `str.strip()`: drop leading and trailing whitespace. -/
def pyStrip (l : Str) : Str :=
  ((l.dropWhile isPySpace).reverse.dropWhile isPySpace).reverse

/-- Python `str.lower()` (ASCII case folding suffices for the inputs
considered here). -/
def lowerStr (l : Str) : Str := l.map Char.toLower

/-! ## Python dicts as ordered association lists -/

/-- One parsed channel record: the Python dict built by
`M3UParser._parse_extinf_line`, later extended with the `url` key. -/
abbrev Entry := List (Str × Str)

/-- Lookup in an ordered association list (`d[k]` / `d.get(k)`). -/
def alookup {α : Type} (k : Str) : List (Str × α) → Option α
  | [] => none
  | (k', v) :: t => if k' = k then some v else alookup k t

/-- Python dict assignment `d[k] = v`: replace the value in place if the
key exists (keeping its position), otherwise append the pair at the end. -/
def dinsert (k v : Str) : Entry → Entry
  | [] => [(k, v)]
  | (k', v') :: t => if k' = k then (k, v) :: t else (k', v') :: dinsert k v t

/-- Python `d.setdefault(k, v)`: insert at the end only when absent. -/
def dsetdefault (k v : Str) (d : Entry) : Entry :=
  match alookup k d with
  | some _ => d
  | none => d ++ [(k, v)]

/-- Python's substring test `needle in hay`. -/
def containsSub (needle : Str) : Str → Bool
  | [] => needle.isPrefixOf []
  | c :: t => needle.isPrefixOf (c :: t) || containsSub needle t

/-! ## The `#EXTINF` record parser (`M3UParser._parse_extinf_line`) -/

/-- The two quote characters accepted by the attribute regex
`([a-zA-Z0-9_-]+)=["\'](.*?)["\']` as both opening and closing quotes. -/
def isQuote (c : Char) : Bool := c = '"' ∨ c = '\''

/-- Characters matched by the regex key class `[a-zA-Z0-9_-]`. -/
def isKeyChar (c : Char) : Bool := c.isAlpha ∨ c.isDigit ∨ c = '_' ∨ c = '-'

/-- One scanning pass of
`re.findall(r'([a-zA-Z0-9_-]+)=["\'](.*?)["\']', s)`: at each start
position try to match a maximal run of key characters, `=`, one opening
quote, then a lazy value ended by the first quote character of either
kind; on failure advance one character, on success continue after the
closing quote.  The fuel is the remaining length (every step consumes at
least one character). -/
def findAttrsGo : Nat → Str → List (Str × Str)
  | 0, _ => []
  | fuel + 1, l =>
    match l.takeWhile isKeyChar, l.dropWhile isKeyChar with
    | _ :: _, '=' :: q :: r =>
      if isQuote q then
        match r.dropWhile (fun c => ¬ isQuote c) with
        | _ :: after =>
          (l.takeWhile isKeyChar, r.takeWhile (fun c => ¬ isQuote c)) :: findAttrsGo fuel after
        | [] => findAttrsGo fuel l.tail
      else findAttrsGo fuel l.tail
    | _, _ => findAttrsGo fuel l.tail

/-- All `key="value"` pairs captured from an attribute segment. -/
def findAttrs (l : Str) : List (Str × Str) := findAttrsGo l.length l

/-- Match the regex fragment `-?\d+` at the front of the string,
returning the matched text and the remainder (the digit run is maximal,
and at least one digit is required). -/
def durTake : Str → Option (Str × Str)
  | [] => none
  | c :: t =>
    if c = '-' then
      if t.takeWhile Char.isDigit = [] then none
      else some ('-' :: t.takeWhile Char.isDigit, t.dropWhile Char.isDigit)
    else
      if (c :: t).takeWhile Char.isDigit = [] then none
      else some ((c :: t).takeWhile Char.isDigit, (c :: t).dropWhile Char.isDigit)

/-- The part of the primary regex after the duration: either an
immediate comma and the name, or whitespace, a lazy attribute capture up
to the first comma after it, and the name. -/
def extinfAfterDur (dur r2 : Str) : Option (Str × Option Str × Str) :=
  match r2 with
  | ',' :: nm => some (dur, none, nm)
  | c :: _ =>
    if isPySpace c then
      if (r2.dropWhile isPySpace).dropWhile (fun x => ¬ x = ',') = [] then none
      else some (dur, some ((r2.dropWhile isPySpace).takeWhile (fun x => ¬ x = ',')),
                 ((r2.dropWhile isPySpace).dropWhile (fun x => ¬ x = ',')).tail)
    else none
  | [] => none

/-- The match of the primary header regex
`#EXTINF:(?P<duration>-?\d+)(?:\s+(?P<attributes>.*?))?,(?P<name>.*)`
against a whole line: returns `(duration, attribute segment?, name)`.
The duration is an optional minus sign and a maximal digit run; if the
next character is a comma the attribute group is absent; if it is
whitespace, the (greedy) whitespace run is skipped and the lazy
attribute group ends at the first comma after it (no comma at all means
no match); any other next character means no match. -/
def extinfMatch (line : Str) : Option (Str × Option Str × Str) :=
  if (chars "#EXTINF:").isPrefixOf line then
    match durTake (line.drop 8) with
    | none => none
    | some (dur, r2) => extinfAfterDur dur r2
  else none

/-- The match of the fallback regex
`#EXTINF:(?P<duration>-?\d+),(?P<name>.*)`: duration immediately
followed by a comma and the name. -/
def simpleExtinfMatch (line : Str) : Option (Str × Str) :=
  if (chars "#EXTINF:").isPrefixOf line then
    match durTake (line.drop 8) with
    | none => none
    | some (dur, r2) =>
      match r2 with
      | ',' :: nm => some (dur, nm)
      | _ => none
  else none

/-- The content-type classifier at the end of `_parse_extinf_line`
(lines 463-477): explicit `tvg-type` first, then substring heuristics
over the lowercased name. -/
def detectContentType (tvgType nameLower : Str) : Str :=
  if tvgType = chars "serie" ∨ tvgType = chars "series" ∨ tvgType = chars "episode" then
    chars "series"
  else if tvgType = chars "movie" ∨ tvgType = chars "film" then
    chars "movie"
  else if ([chars "s0", chars "s1", chars "s2", chars "s3", chars "s4", chars "s5",
            chars "s6", chars "s7", chars "s8", chars "s9", chars "e0", chars "e1",
            chars "e2", chars "e3", chars "e4", chars "e5", chars "e6", chars "e7",
            chars "e8", chars "e9", chars "season", chars "episode"].any
            (fun p => containsSub p nameLower)) then
    chars "series"
  else if ([chars "movie", chars "film", chars "(20", chars "(19"].any
            (fun p => containsSub p nameLower)) then
    chars "movie"
  else
    chars "live"

/-- The dict built by `_parse_extinf_line` for a successful primary
match, before the final `content_type` assignment: `duration` and the
stripped `name` first, then the captured attributes with lowercased keys
(overwriting in place), the `tvg-name` fallback, and the three
`setdefault` calls. -/
def headerInfo (dur : Str) (attrs? : Option Str) (name : Str) : Entry :=
  let info : Entry := dinsert (chars "name") (pyStrip name)
                        (dinsert (chars "duration") dur [])
  let info :=
    match attrs? with
    | some a =>
      if a = [] then info
      else (findAttrs a).foldl (fun i kv => dinsert (lowerStr kv.1) kv.2 i) info
    | none => info
  let info :=
    match alookup (chars "tvg-name") info with
    | some v => if v = [] then dinsert (chars "tvg-name")
                  ((alookup (chars "name") info).getD []) info
                else info
    | none => dinsert (chars "tvg-name") ((alookup (chars "name") info).getD []) info
  let info := dsetdefault (chars "tvg-id") [] info
  let info := dsetdefault (chars "tvg-logo") [] info
  dsetdefault (chars "group-title") (chars "Uncategorized") info

/-- `M3UParser._parse_extinf_line`.  Returns the Python dict (`[]` for
the empty dict `{}` returned on malformed lines).  When the primary
regex fails, the source tries the fallback regex; a successful fallback
match would then raise `IndexError` at `simple_match.group("n")` (the
group is named `name`), which every caller catches by resetting the
pending header to `{}` - and a failing fallback returns `{}` directly,
so the function is `{}` whenever the primary regex fails. -/
def parseExtinfLine (line : Str) : Entry :=
  match extinfMatch line with
  | none => []
  | some (dur, attrs?, name) =>
    let info := headerInfo dur attrs? name
    dinsert (chars "content_type")
      (detectContentType (lowerStr ((alookup (chars "tvg-type") info).getD []))
                         (lowerStr ((alookup (chars "name") info).getD []))) info

/-! ## The playlist builder state machine

`_parse_content` and the line-processing core of
`_parse_content_with_progress` share the same per-line state machine:
a pending header dict (`{}` when absent), the accumulated channel list,
the category index, and the processed-channel counter. -/

/-- The mutable parsing state of `M3UParser` during one parse:
`current_channel_info`, `self.channels`, `self.categories` and
`channels_processed`. -/
structure PState where
  pending : Entry
  channels : List Entry
  categories : List (Str × List Entry)
  processed : Nat
  deriving DecidableEq

def initPState : PState := ⟨[], [], [], 0⟩

/-- The category key of a finished entry:
`current_channel_info.get("group-title", "Uncategorized")`. -/
def groupOf (e : Entry) : Str :=
  (alookup (chars "group-title") e).getD (chars "Uncategorized")

/-- Append an entry to its category's list, creating the category at the
end of the index on first sight (Python dict insertion-order plus
in-place list append). -/
def catInsert (g : Str) (e : Entry) : List (Str × List Entry) → List (Str × List Entry)
  | [] => [(g, [e])]
  | (k, l) :: t => if k = g then (k, l ++ [e]) :: t else (k, l) :: catInsert g e t

/-- Complete the pending header with a URL line: set `url`, append the
entry to the channel list and to its category, reset the pending header
and count it (source lines 249-263). -/
def addChannel (st : PState) (url : Str) : PState :=
  let e := dinsert (chars "url") url st.pending
  { pending := []
    channels := st.channels ++ [e]
    categories := catInsert (groupOf e) e st.categories
    processed := st.processed + 1 }

/-- Process one raw line: strip it, skip blanks, `#EXTINF:` lines set
the pending header, `#EXTVLCOPT:`/`#EXTGRP:` and other `#` lines are
ignored, and any other line is a URL that completes the pending header
when one exists. -/
def processLine (st : PState) (raw : Str) : PState :=
  let line := pyStrip raw
  if line = [] then st
  else if (chars "#EXTINF:").isPrefixOf line then { st with pending := parseExtinfLine line }
  else if (chars "#EXTVLCOPT:").isPrefixOf line ∨ (chars "#EXTGRP:").isPrefixOf line then st
  else if ¬ (chars "#").isPrefixOf line then
    if st.pending = [] then st else addChannel st line
  else st

/-- `M3UParser._parse_content` on a list of lines (the `#EXTM3U`
sniffing of its first three lines only prints a warning and leaves the
state untouched, as does the empty-content early return). -/
def parseContent (lines : List Str) : PState :=
  lines.foldl processLine initPState

/-! ## Basic dictionary lemmas -/

theorem alookup_dinsert_self (k v : Str) (d : Entry) :
    alookup k (dinsert k v d) = some v := by
  induction d with
  | nil => simp [dinsert, alookup]
  | cons kv t ih =>
    obtain ⟨k', v'⟩ := kv
    by_cases h : k' = k
    · simp [dinsert, h, alookup]
    · simp [dinsert, h, alookup, ih]

theorem alookup_dinsert_ne (k k' v : Str) (d : Entry) (h : k ≠ k') :
    alookup k' (dinsert k v d) = alookup k' d := by
  induction d with
  | nil => simp [dinsert, alookup, h]
  | cons kv t ih =>
    obtain ⟨k'', v''⟩ := kv
    by_cases hk : k'' = k
    · subst hk
      simp [dinsert, alookup, h, ih]
    · by_cases hk2 : k'' = k' <;> simp [dinsert, hk, alookup, ih, hk2, Ne.symm h]

theorem alookup_dinsert_isSome (k k' v : Str) (d : Entry)
    (h : (alookup k' d).isSome) : (alookup k' (dinsert k v d)).isSome := by
  by_cases hk : k = k'
  · subst hk; simp [alookup_dinsert_self]
  · rwa [alookup_dinsert_ne k k' v d hk]

theorem alookup_dsetdefault_isSome (k k' v : Str) (d : Entry)
    (h : (alookup k' d).isSome) : (alookup k' (dsetdefault k v d)).isSome := by
  unfold dsetdefault
  cases hl : alookup k d with
  | some w => simpa [hl] using h
  | none =>
    simp only [hl]
    induction d with
    | nil => simp [alookup] at h
    | cons kv t ih =>
      obtain ⟨k'', v''⟩ := kv
      by_cases hk : k'' = k'
      · simp [alookup, hk]
      · simp only [alookup, hk, if_false, List.cons_append] at h ⊢
        exact ih h (by simpa [alookup, show ¬ k'' = k from fun e => by simp [alookup, e] at hl] using hl)

/-- The pre-`content_type` header dict always has a `name` key. -/
theorem headerInfo_has_name (dur : Str) (attrs? : Option Str) (name : Str) :
    (alookup (chars "name") (headerInfo dur attrs? name)).isSome := by
  unfold headerInfo
  apply alookup_dsetdefault_isSome
  apply alookup_dsetdefault_isSome
  apply alookup_dsetdefault_isSome
  have base : (alookup (chars "name")
      (dinsert (chars "name") (pyStrip name) (dinsert (chars "duration") dur []))).isSome := by
    simp [alookup_dinsert_self]
  set info0 : Entry := dinsert (chars "name") (pyStrip name) (dinsert (chars "duration") dur [])
  have step1 : ∀ (ps : List (Str × Str)) (d : Entry), (alookup (chars "name") d).isSome →
      (alookup (chars "name") (ps.foldl (fun i kv => dinsert (lowerStr kv.1) kv.2 i) d)).isSome := by
    intro ps
    induction ps with
    | nil => intro d hd; exact hd
    | cons p t ih => intro d hd; exact ih _ (alookup_dinsert_isSome _ _ _ _ hd)
  cases attrs? with
  | none =>
    simp only
    cases hn : alookup (chars "tvg-name") info0 with
    | some v =>
      by_cases hv : v = [] <;> simp [hn, hv, base, alookup_dinsert_isSome _ _ _ _ base]
    | none => simp [hn, alookup_dinsert_isSome _ _ _ _ base]
  | some a =>
    by_cases ha : a = []
    · simp only [ha, if_true]
      cases hn : alookup (chars "tvg-name") info0 with
      | some v =>
        by_cases hv : v = [] <;> simp [hn, hv, base, alookup_dinsert_isSome _ _ _ _ base]
      | none => simp [hn, alookup_dinsert_isSome _ _ _ _ base]
    · simp only [ha, if_false]
      have base2 := step1 (findAttrs a) info0 base
      set info1 := (findAttrs a).foldl (fun i kv => dinsert (lowerStr kv.1) kv.2 i) info0
      cases hn : alookup (chars "tvg-name") info1 with
      | some v =>
        by_cases hv : v = [] <;> simp [hn, hv, base2, alookup_dinsert_isSome _ _ _ _ base2]
      | none => simp [hn, alookup_dinsert_isSome _ _ _ _ base2]

/-- Every successfully parsed header has a `name` key. -/
theorem parseExtinf_has_name (line : Str) (h : parseExtinfLine line ≠ []) :
    (alookup (chars "name") (parseExtinfLine line)).isSome := by
  unfold parseExtinfLine
  cases hm : extinfMatch line with
  | none => exfalso; apply h; unfold parseExtinfLine; rw [hm]
  | some r =>
    obtain ⟨dur, attrs?, name⟩ := r
    simp only
    exact alookup_dinsert_isSome _ _ _ _ (headerInfo_has_name dur attrs? name)

/-! ## The category index as a function of the channel list -/

/-- Rebuild the category index from a channel list by replaying the
per-channel insertions in order. -/
def buildCats (l : List Entry) : List (Str × List Entry) :=
  l.foldl (fun cs e => catInsert (groupOf e) e cs) []

/-- First-appearance-order deduplication of a key list. -/
def firstOccs (l : List Str) : List Str :=
  l.foldl (fun acc g => if g ∈ acc then acc else acc ++ [g]) []

theorem alookup_catInsert_self (g : Str) (e : Entry) (cs : List (Str × List Entry)) :
    alookup g (catInsert g e cs) = some ((alookup g cs).getD [] ++ [e]) := by
  induction cs with
  | nil => simp [catInsert, alookup]
  | cons kv t ih =>
    obtain ⟨k, x⟩ := kv
    by_cases h : k = g <;> simp [catInsert, h, alookup, ih]

theorem alookup_catInsert_ne (g g' : Str) (e : Entry) (cs : List (Str × List Entry))
    (h : g ≠ g') : alookup g' (catInsert g e cs) = alookup g' cs := by
  induction cs with
  | nil => simp [catInsert, alookup, h]
  | cons kv t ih =>
    obtain ⟨k, x⟩ := kv
    by_cases hk : k = g
    · subst hk; simp [catInsert, alookup, h, Ne.symm h]
    · by_cases hk2 : k = g' <;> simp [catInsert, hk, alookup, ih, hk2, Ne.symm h]

theorem map_fst_catInsert (g : Str) (e : Entry) (cs : List (Str × List Entry)) :
    (catInsert g e cs).map Prod.fst =
      if g ∈ cs.map Prod.fst then cs.map Prod.fst else cs.map Prod.fst ++ [g] := by
  induction cs with
  | nil => simp [catInsert]
  | cons kv t ih =>
    obtain ⟨k, x⟩ := kv
    by_cases h : k = g
    · simp [catInsert, h]
    · by_cases hm : g ∈ t.map Prod.fst <;> simp [catInsert, h, ih, Ne.symm h, hm]

theorem join_map_snd_catInsert (g : Str) (e : Entry) (cs : List (Str × List Entry)) :
    ((catInsert g e cs).map Prod.snd).flatten.Perm (((cs.map Prod.snd).flatten) ++ [e]) := by
  induction cs with
  | nil => simp [catInsert]
  | cons kv t ih =>
    obtain ⟨k, x⟩ := kv
    by_cases h : k = g
    · simp only [catInsert, h, if_true, List.map_cons, List.flatten_cons]
      have h1 : List.Perm (x ++ ([e] ++ (t.map Prod.snd).flatten))
          (x ++ ((t.map Prod.snd).flatten ++ [e])) :=
        List.Perm.append_left x List.perm_append_comm
      simpa [List.append_assoc] using h1
    · simp only [catInsert, h, if_false, List.map_cons, List.flatten_cons]
      have h1 := List.Perm.append_left x ih
      simpa [List.append_assoc] using h1

theorem buildCats_from_getD (l : List Entry) :
    ∀ (cs : List (Str × List Entry)) (g : Str),
      (alookup g (l.foldl (fun cs e => catInsert (groupOf e) e cs) cs)).getD [] =
        (alookup g cs).getD [] ++ l.filter (fun e => groupOf e = g) := by
  induction l with
  | nil => intro cs g; simp
  | cons e t ih =>
    intro cs g
    simp only [List.foldl_cons, List.filter_cons]
    by_cases h : groupOf e = g
    · rw [ih, ← h, alookup_catInsert_self]
      simp [h]
    · rw [ih, alookup_catInsert_ne _ _ _ _ h]
      simp [h]

theorem buildCats_from_isSome (l : List Entry) :
    ∀ (cs : List (Str × List Entry)) (g : Str),
      (alookup g (l.foldl (fun cs e => catInsert (groupOf e) e cs) cs)).isSome =
        ((alookup g cs).isSome || !(l.filter (fun e => groupOf e = g)).isEmpty) := by
  induction l with
  | nil => intro cs g; simp
  | cons e t ih =>
    intro cs g
    simp only [List.foldl_cons, List.filter_cons]
    by_cases h : groupOf e = g
    · rw [ih, ← h, alookup_catInsert_self]
      simp [h]
    · rw [ih, alookup_catInsert_ne _ _ _ _ h]
      simp [h]

theorem buildCats_from_keys (l : List Entry) :
    ∀ (cs : List (Str × List Entry)),
      ((l.foldl (fun cs e => catInsert (groupOf e) e cs) cs).map Prod.fst) =
        (l.map groupOf).foldl (fun acc g => if g ∈ acc then acc else acc ++ [g])
          (cs.map Prod.fst) := by
  induction l with
  | nil => intro cs; simp
  | cons e t ih =>
    intro cs
    simp only [List.foldl_cons, List.map_cons]
    rw [ih, map_fst_catInsert]

theorem buildCats_from_perm (l : List Entry) :
    ∀ (cs : List (Str × List Entry)),
      (((l.foldl (fun cs e => catInsert (groupOf e) e cs) cs).map Prod.snd).flatten).Perm
        ((cs.map Prod.snd).flatten ++ l) := by
  induction l with
  | nil => intro cs; simp
  | cons e t ih =>
    intro cs
    simp only [List.foldl_cons]
    have h1 := ih (catInsert (groupOf e) e cs)
    have h3 : ((cs.map Prod.snd).flatten ++ [e]) ++ t = (cs.map Prod.snd).flatten ++ (e :: t) := by
      simp
    exact h1.trans (h3 ▸ List.Perm.append_right t (join_map_snd_catInsert (groupOf e) e cs))

/-! ## The parse invariant behind C2 -/

/-- The invariant maintained by `processLine`: the category index is the
replay of the channel list, every stored channel has a `name` and a
`url`, and a nonempty pending header always carries a `name`. -/
def GoodSt (st : PState) : Prop :=
  st.categories = buildCats st.channels ∧
  (∀ e ∈ st.channels, (alookup (chars "name") e).isSome ∧ (alookup (chars "url") e).isSome) ∧
  (st.pending = [] ∨ (alookup (chars "name") st.pending).isSome)

theorem goodSt_init : GoodSt initPState := by
  refine ⟨rfl, ?_, Or.inl rfl⟩
  intro e he
  simp [initPState] at he

theorem goodSt_addChannel (st : PState) (url : Str) (h : GoodSt st)
    (hpn : (alookup (chars "name") st.pending).isSome) : GoodSt (addChannel st url) := by
  obtain ⟨hc, hn, _⟩ := h
  refine ⟨?_, ?_, Or.inl rfl⟩
  · simp only [addChannel, hc, buildCats, List.foldl_append, List.foldl_cons, List.foldl_nil]
  · intro e he
    simp only [addChannel, List.mem_append, List.mem_singleton] at he
    rcases he with he | he
    · exact hn e he
    · subst he
      exact ⟨alookup_dinsert_isSome _ _ _ _ hpn, by simp [alookup_dinsert_self]⟩

theorem goodSt_processLine (st : PState) (raw : Str) (h : GoodSt st) :
    GoodSt (processLine st raw) := by
  have hG := h
  obtain ⟨hc, hn, hp⟩ := h
  simp only [processLine]
  split_ifs with h1 h2 h3 h4 h5
  · exact ⟨hc, hn, hp⟩
  · refine ⟨hc, hn, ?_⟩
    by_cases hpe : parseExtinfLine (pyStrip raw) = []
    · exact Or.inl hpe
    · exact Or.inr (parseExtinf_has_name _ hpe)
  · exact ⟨hc, hn, hp⟩
  · exact ⟨hc, hn, hp⟩
  · exact ⟨hc, hn, hp⟩
  · exact goodSt_addChannel st (pyStrip raw) hG (hp.resolve_left h5)

theorem goodSt_parseContent (lines : List Str) : GoodSt (parseContent lines) := by
  unfold parseContent
  induction lines using List.reverseRecOn with
  | nil => exact goodSt_init
  | append_singleton t x ih =>
    rw [List.foldl_append, List.foldl_cons, List.foldl_nil]
    exact goodSt_processLine _ _ ih

/-! ## Claims C1 and C2 -/

/-- The concrete six-line input of claim C1. -/
def c1Input : List Str :=
  [chars "#EXTM3U",
   chars "#EXTINF:-1 tvg-id=\"c1\" group-title=\"News\",Channel One",
   chars "http://example.com/1",
   chars "#EXTINF:-1,No Attrs Channel",
   chars "http://example.com/2",
   chars "http://example.com/orphan"]

/-- C1: for the concrete six-line input (`#EXTM3U` header, a `News`
channel with attributes and its URL, an attribute-free channel and its
URL, then an orphan URL), parsing yields exactly 2 entries; the category
index maps `News` to the single entry named `Channel One` and
`Uncategorized` to the single entry named `No Attrs Channel`; the orphan
URL produces no entry. -/
theorem claim_C1 :
    (parseContent c1Input).channels.length = 2 ∧
    (parseContent c1Input).channels.map (fun e => (alookup (chars "name") e).getD []) =
      [chars "Channel One", chars "No Attrs Channel"] ∧
    (parseContent c1Input).categories.map Prod.fst =
      [chars "News", chars "Uncategorized"] ∧
    ((alookup (chars "News") (parseContent c1Input).categories).getD []).map
      (fun e => (alookup (chars "name") e).getD []) = [chars "Channel One"] ∧
    ((alookup (chars "Uncategorized") (parseContent c1Input).categories).getD []).map
      (fun e => (alookup (chars "name") e).getD []) = [chars "No Attrs Channel"] ∧
    (parseContent c1Input).channels.map (fun e => (alookup (chars "url") e).getD []) =
      [chars "http://example.com/1", chars "http://example.com/2"] := by
  decide

/-- C2: after every parse, each stored entry has both a header-derived
name and a url; the category lists partition the entry list (the flatten
of all category lists is a permutation of the channel list, and the list
held under each key is exactly the sub-list of channels with that
group-title, so each entry occurs exactly once, in one category, chosen
by its group-title with default `Uncategorized`); category keys appear
in first-appearance order and entries within a category in insertion
order. -/
theorem claim_C2 (lines : List Str) :
    (∀ e ∈ (parseContent lines).channels,
        (alookup (chars "name") e).isSome ∧ (alookup (chars "url") e).isSome) ∧
    (((parseContent lines).categories.map Prod.snd).flatten).Perm
      (parseContent lines).channels ∧
    (parseContent lines).categories.map Prod.fst =
      firstOccs ((parseContent lines).channels.map groupOf) ∧
    (∀ g, (alookup g (parseContent lines).categories).getD [] =
      (parseContent lines).channels.filter (fun e => groupOf e = g)) ∧
    (∀ g, (alookup g (parseContent lines).categories).isSome =
      !((parseContent lines).channels.filter (fun e => groupOf e = g)).isEmpty) := by
  obtain ⟨hc, hn, -⟩ := goodSt_parseContent lines
  refine ⟨hn, ?_, ?_, ?_, ?_⟩
  · rw [hc]
    simpa using buildCats_from_perm (parseContent lines).channels []
  · rw [hc]
    simpa [firstOccs] using buildCats_from_keys (parseContent lines).channels []
  · intro g
    rw [hc]
    simpa [alookup] using buildCats_from_getD (parseContent lines).channels [] g
  · intro g
    rw [hc]
    simpa [alookup] using buildCats_from_isSome (parseContent lines).channels [] g

/-- Witness for C2 at a concrete two-line input: its single entry has
both a name and a url. -/
theorem claim_C2_witness :
    (alookup (chars "name")
      ((parseContent [chars "#EXTINF:-1,A", chars "http://u"]).channels.headI)).isSome ∧
    (alookup (chars "url")
      ((parseContent [chars "#EXTINF:-1,A", chars "http://u"]).channels.headI)).isSome :=
  (claim_C2 [chars "#EXTINF:-1,A", chars "http://u"]).1 _ (by decide)

/-! ## Claim C5: content-type derivation -/

/-- Does the string contain `(`, then `19` or `20`, then two more
digits, then `)` - a 4-digit year in parentheses - starting at the
front? -/
def parenYearAt : Str → Bool
  | '(' :: a :: b :: c :: d :: ')' :: _ =>
    ((a = '1' && b = '9') || (a = '2' && b = '0')) && c.isDigit && d.isDigit
  | _ => false

/-- Does the string contain a 4-digit year in parentheses starting `19`
or `20` anywhere? -/
def hasParenYear : Str → Bool
  | [] => false
  | c :: t => parenYearAt (c :: t) || hasParenYear t

/-- The content-type rule exactly as claim C5 states it: its movie
heuristic requires a full 4-digit year in parentheses. -/
def claimC5ContentType (tvgType nameLower : Str) : Str :=
  if tvgType = chars "serie" ∨ tvgType = chars "series" ∨ tvgType = chars "episode" then
    chars "series"
  else if tvgType = chars "movie" ∨ tvgType = chars "film" then
    chars "movie"
  else if ([chars "s0", chars "s1", chars "s2", chars "s3", chars "s4", chars "s5",
            chars "s6", chars "s7", chars "s8", chars "s9", chars "e0", chars "e1",
            chars "e2", chars "e3", chars "e4", chars "e5", chars "e6", chars "e7",
            chars "e8", chars "e9", chars "season", chars "episode"].any
            (fun p => containsSub p nameLower)) then
    chars "series"
  else if containsSub (chars "movie") nameLower || containsSub (chars "film") nameLower ||
          hasParenYear nameLower then
    chars "movie"
  else
    chars "live"

/-- The content-type rule as amended: the movie heuristic accepts the
bare substrings `(20` / `(19` (no full year required), matching the
source's pattern list `["movie", "film", "(20", "(19"]`. -/
def amendedC5ContentType (tvgType nameLower : Str) : Str :=
  if tvgType = chars "serie" ∨ tvgType = chars "series" ∨ tvgType = chars "episode" then
    chars "series"
  else if tvgType = chars "movie" ∨ tvgType = chars "film" then
    chars "movie"
  else if ([chars "s0", chars "s1", chars "s2", chars "s3", chars "s4", chars "s5",
            chars "s6", chars "s7", chars "s8", chars "s9", chars "e0", chars "e1",
            chars "e2", chars "e3", chars "e4", chars "e5", chars "e6", chars "e7",
            chars "e8", chars "e9", chars "season", chars "episode"].any
            (fun p => containsSub p nameLower)) then
    chars "series"
  else if ([chars "movie", chars "film", chars "(20", chars "(19"].any
            (fun p => containsSub p nameLower)) then
    chars "movie"
  else
    chars "live"

/-- Counterexample to C5 as stated: the name `abc (19q` contains the
substring `(19` but no 4-digit year in parentheses and no other marker,
yet the parser classifies the entry as `movie` where the claim requires
`live`. -/
theorem claim_C5_counterexample :
    parseExtinfLine (chars "#EXTINF:-1,abc (19q") ≠ [] ∧
    alookup (chars "content_type") (parseExtinfLine (chars "#EXTINF:-1,abc (19q")) =
      some (chars "movie") ∧
    claimC5ContentType
      (lowerStr ((alookup (chars "tvg-type")
        (parseExtinfLine (chars "#EXTINF:-1,abc (19q"))).getD []))
      (lowerStr ((alookup (chars "name")
        (parseExtinfLine (chars "#EXTINF:-1,abc (19q"))).getD [])) = chars "live" ∧
    chars "movie" ≠ chars "live" := by
  decide

/-- C5 as amended: for every successfully parsed header, the stored
`content_type` is the classifier of the entry's lowercased `tvg-type`
attribute and lowercased name, where the movie heuristic checks the
substrings `movie`, `film`, `(20`, `(19`. -/
theorem claim_C5_amended (line : Str) (h : parseExtinfLine line ≠ []) :
    alookup (chars "content_type") (parseExtinfLine line) =
      some (amendedC5ContentType
        (lowerStr ((alookup (chars "tvg-type") (parseExtinfLine line)).getD []))
        (lowerStr ((alookup (chars "name") (parseExtinfLine line)).getD []))) := by
  cases hm : extinfMatch line with
  | none => exfalso; apply h; unfold parseExtinfLine; rw [hm]
  | some r =>
    obtain ⟨dur, attrs?, name⟩ := r
    have hP : parseExtinfLine line = dinsert (chars "content_type")
        (detectContentType
          (lowerStr ((alookup (chars "tvg-type") (headerInfo dur attrs? name)).getD []))
          (lowerStr ((alookup (chars "name") (headerInfo dur attrs? name)).getD [])))
        (headerInfo dur attrs? name) := by
      unfold parseExtinfLine
      rw [hm]
    rw [hP, alookup_dinsert_self,
      alookup_dinsert_ne _ _ _ _ (by decide), alookup_dinsert_ne _ _ _ _ (by decide)]
    rfl

/-- Witness for the amended C5 at a concrete series-named header. -/
theorem claim_C5_amended_witness :
    alookup (chars "content_type") (parseExtinfLine (chars "#EXTINF:-1,Show S01E02")) =
      some (amendedC5ContentType
        (lowerStr ((alookup (chars "tvg-type")
          (parseExtinfLine (chars "#EXTINF:-1,Show S01E02"))).getD []))
        (lowerStr ((alookup (chars "name")
          (parseExtinfLine (chars "#EXTINF:-1,Show S01E02"))).getD []))) :=
  claim_C5_amended (chars "#EXTINF:-1,Show S01E02") (by decide)

/-! ## Claim C6: attribute value capture -/

theorem mem_takeWhile_sat {α : Type} (p : α → Bool) :
    ∀ (l : List α) (a : α), a ∈ l.takeWhile p → p a = true := by
  intro l
  induction l with
  | nil => intro a h; simp [List.takeWhile] at h
  | cons c t ih =>
    intro a h
    by_cases hc : p c = true
    · rw [List.takeWhile_cons_of_pos hc] at h
      rcases List.mem_cons.mp h with h | h
      · rwa [h]
      · exact ih a h
    · rw [List.takeWhile_cons_of_neg (by simpa using hc)] at h
      simp at h

theorem findAttrsGo_value_no_quote :
    ∀ (fuel : Nat) (l k v : Str), (k, v) ∈ findAttrsGo fuel l →
      ∀ c ∈ v, isQuote c = false := by
  intro fuel
  induction fuel with
  | zero => intro l k v h; simp [findAttrsGo] at h
  | succ n ih =>
    intro l k v h
    rw [findAttrsGo] at h
    split at h
    · rename_i q r htk hdk
      split at h
      · split at h
        · rename_i after hdrop
          rcases List.mem_cons.mp h with h | h
          · rw [Prod.ext_iff] at h
            obtain ⟨hk, hv⟩ := h
            intro c hc
            simp only at hv
            rw [hv] at hc
            simpa using mem_takeWhile_sat _ _ _ hc
          · exact ih _ _ _ h
        · exact ih _ _ _ h
      · exact ih _ _ _ h
    · exact ih _ _ _ h

theorem findAttrsGo_nil_eq : ∀ (f : Nat), findAttrsGo f [] = [] := by
  intro f
  induction f with
  | zero => rfl
  | succ n ih => rw [findAttrsGo]; exact ih

theorem dropWhile_length_le {α : Type} (p : α → Bool) (l : List α) :
    (l.dropWhile p).length ≤ l.length := by
  have h := congrArg List.length (List.takeWhile_append_dropWhile p l)
  simp only [List.length_append] at h
  omega

/-- The fuel argument of `findAttrsGo` is irrelevant as soon as it is at
least the length of the scanned string (each step consumes at least one
character). -/
theorem findAttrsGo_fuel_eq :
    ∀ (n f1 f2 : Nat) (l : Str), l.length ≤ n → l.length ≤ f1 → l.length ≤ f2 →
      findAttrsGo f1 l = findAttrsGo f2 l := by
  intro n
  induction n with
  | zero =>
    intro f1 f2 l hn _ _
    have hl : l = [] := List.length_eq_zero.mp (Nat.le_zero.mp hn)
    subst hl
    rw [findAttrsGo_nil_eq, findAttrsGo_nil_eq]
  | succ m ih =>
    intro f1 f2 l hn h1 h2
    cases l with
    | nil => rw [findAttrsGo_nil_eq, findAttrsGo_nil_eq]
    | cons c t =>
      have hn' : t.length + 1 ≤ m + 1 := by simpa using hn
      have h1' : t.length + 1 ≤ f1 := by simpa using h1
      have h2' : t.length + 1 ≤ f2 := by simpa using h2
      obtain ⟨a, rfl⟩ : ∃ a, f1 = a + 1 := ⟨f1 - 1, by omega⟩
      obtain ⟨b, rfl⟩ : ∃ b, f2 = b + 1 := ⟨f2 - 1, by omega⟩
      rw [findAttrsGo, findAttrsGo]
      split
      · rename_i head tail q r heq1 heq2
        by_cases hq : isQuote q = true
        · rw [if_pos hq, if_pos hq]
          split
          · rename_i x after heq3
            have e1 : ((c :: t).takeWhile isKeyChar).length = tail.length + 1 := by
              rw [heq1]; simp
            have e2 : ((c :: t).dropWhile isKeyChar).length = r.length + 2 := by
              rw [heq2]; simp
            have e3 : (r.dropWhile (fun c => ¬ isQuote c)).length = after.length + 1 := by
              rw [heq3]; simp
            have e4 := dropWhile_length_le (fun c => ¬ isQuote c) r
            have e5 : ((c :: t).takeWhile isKeyChar).length +
                ((c :: t).dropWhile isKeyChar).length = t.length + 1 := by
              rw [← List.length_append, List.takeWhile_append_dropWhile]; simp
            have hb : findAttrsGo a after = findAttrsGo b after :=
              ih a b after (by omega) (by omega) (by omega)
            rw [hb]
          · exact ih a b t (by omega) (by omega) (by omega)
        · rw [if_neg hq, if_neg hq]
          exact ih a b t (by omega) (by omega) (by omega)
      · exact ih a b t (by omega) (by omega) (by omega)

theorem takeWhile_append_not {α : Type} (p : α → Bool) :
    ∀ (pre : List α) (c : α) (suf : List α), (∀ x ∈ pre, p x = true) → p c = false →
      (pre ++ c :: suf).takeWhile p = pre ∧ (pre ++ c :: suf).dropWhile p = c :: suf := by
  intro pre
  induction pre with
  | nil =>
    intro c suf _ hc
    constructor
    · rw [List.nil_append, List.takeWhile_cons_of_neg (by simp [hc])]
    · rw [List.nil_append, List.dropWhile_cons_of_neg (by simp [hc])]
  | cons a t ih =>
    intro c suf hpre hc
    have ha : p a = true := hpre a (List.mem_cons_self a t)
    have iht := ih c suf (fun x hx => hpre x (List.mem_cons_of_mem a hx)) hc
    constructor
    · rw [List.cons_append, List.takeWhile_cons_of_pos ha, iht.1]
    · rw [List.cons_append, List.dropWhile_cons_of_pos ha, iht.2]

/-- A position that starts a full match - a nonempty key-character run,
`=`, an opening quote, and a later quote somewhere in the rest - emits
the pair whose value is the run up to the FIRST quote character of
either kind, and the scan resumes right after that closing quote. -/
theorem findAttrs_capture (key : Str) (q : Char) (w : Str)
    (hk : key ≠ []) (hkc : ∀ c ∈ key, isKeyChar c = true) (hq : isQuote q = true)
    (hw : ∃ c ∈ w, isQuote c = true) :
    findAttrs (key ++ '=' :: q :: w) =
      (key, w.takeWhile (fun c => ¬ isQuote c)) ::
        findAttrs ((w.dropWhile (fun c => ¬ isQuote c)).tail) := by
  obtain ⟨k0, kt, rfl⟩ : ∃ k0 kt, key = k0 :: kt := by
    cases key with
    | nil => exact absurd rfl hk
    | cons k0 kt => exact ⟨k0, kt, rfl⟩
  obtain ⟨hT, hD⟩ := takeWhile_append_not isKeyChar (k0 :: kt) '=' (q :: w) hkc (by decide)
  have hw2 : w.dropWhile (fun c => ¬ isQuote c) ≠ [] := by
    intro hnil
    obtain ⟨c, hc, hqc⟩ := hw
    have := List.dropWhile_eq_nil_iff.mp hnil c hc
    simp [hqc] at this
  obtain ⟨x, xs, hxs⟩ : ∃ x xs, w.dropWhile (fun c => ¬ isQuote c) = x :: xs := by
    cases hcase : w.dropWhile (fun c => ¬ isQuote c) with
    | nil => exact absurd hcase hw2
    | cons x xs => exact ⟨x, xs, rfl⟩
  have hxlen : xs.length + 1 ≤ w.length := by
    have h1 := dropWhile_length_le (fun c => ¬ isQuote c) w
    rw [hxs] at h1
    simpa using h1
  have hlen : ((k0 :: kt) ++ '=' :: q :: w).length = (kt.length + w.length + 2) + 1 := by
    simp only [List.length_append, List.length_cons]
    omega
  unfold findAttrs
  rw [hlen, findAttrsGo]
  split
  · rename_i head tail q2 r heq1 heq2
    rw [hD] at heq2
    obtain ⟨hq2, hr⟩ : q = q2 ∧ w = r := by
      injection heq2 with h1 h2
      injection h2 with h3 h4
      exact ⟨h3, h4⟩
    subst hq2
    subst hr
    rw [if_pos hq]
    split
    · rename_i x2 after heq3
      rw [hxs] at heq3
      obtain ⟨hx2, hafter⟩ : x = x2 ∧ xs = after := by
        injection heq3 with h1 h2
        exact ⟨h1, h2⟩
      subst hx2
      subst hafter
      rw [hT, hxs]
      simp only [List.tail_cons]
      have hb : findAttrsGo (kt.length + w.length + 2) xs = findAttrsGo xs.length xs :=
        findAttrsGo_fuel_eq (kt.length + w.length + 2) (kt.length + w.length + 2)
          xs.length xs (by omega) (by omega) (by omega)
      rw [hb]
    · rename_i heq3
      rw [hxs] at heq3
      exact absurd heq3 (by simp)
  · rename_i hno
    exact absurd hD (by intro h; exact hno k0 kt q w hT h)

/-- Scanning past one character that cannot start a key changes nothing. -/
theorem findAttrs_skip (c : Char) (rest : Str) (hc : isKeyChar c = false) :
    findAttrs (c :: rest) = findAttrs rest := by
  unfold findAttrs
  rw [show (c :: rest).length = rest.length + 1 from by simp, findAttrsGo]
  split
  · rename_i head tail q r heq1 heq2
    rw [List.takeWhile_cons_of_neg (by simp [hc])] at heq1
    exact absurd heq1 (by simp)
  · rfl

/-- Render a list of attribute items in the `#EXTINF` attribute-segment
format: each item is `key`, `=`, its quote character, the value, the
same quote character again, then a single separating space. -/
def renderAttrs : List (Str × Char × Str) → Str
  | [] => []
  | p :: rest => p.1 ++ '=' :: p.2.1 :: (p.2.2 ++ p.2.1 :: ' ' :: renderAttrs rest)

/-- Completeness of the attribute scan: on a well-formed attribute
segment (nonempty keys over the regex key class, either quote kind per
item, values free of both quote characters) every single `key="value"` /
`key='value'` item is captured, in order, with exactly its value. -/
theorem findAttrs_render :
    ∀ ps : List (Str × Char × Str),
      (∀ p ∈ ps, p.1 ≠ [] ∧ (∀ c ∈ p.1, isKeyChar c = true) ∧ isQuote p.2.1 = true ∧
        (∀ c ∈ p.2.2, isQuote c = false)) →
      findAttrs (renderAttrs ps) = ps.map (fun p => (p.1, p.2.2)) := by
  intro ps
  induction ps with
  | nil => intro _; rfl
  | cons p t ih =>
    intro hps
    obtain ⟨hk, hkc, hq, hv⟩ := hps p (List.mem_cons_self p t)
    have hrest := fun r hr => hps r (List.mem_cons_of_mem p hr)
    show findAttrs (p.1 ++ '=' :: p.2.1 :: (p.2.2 ++ p.2.1 :: ' ' :: renderAttrs t)) = _
    rw [findAttrs_capture p.1 p.2.1 (p.2.2 ++ p.2.1 :: ' ' :: renderAttrs t) hk hkc hq
      ⟨p.2.1, by simp, hq⟩]
    obtain ⟨hT2, hD2⟩ := takeWhile_append_not (fun c => ¬ isQuote c) p.2.2 p.2.1
      (' ' :: renderAttrs t) (fun x hx => by simp [hv x hx]) (by simp [hq])
    rw [hT2, hD2]
    simp only [List.tail_cons]
    rw [findAttrs_skip ' ' (renderAttrs t) (by decide), ih hrest]
    rfl

theorem alookup_attrFold_isSome (key : Str) :
    ∀ (ps : List (Str × Str)) (d : Entry), (alookup key d).isSome →
      (alookup key (ps.foldl (fun i kv => dinsert (lowerStr kv.1) kv.2 i) d)).isSome := by
  intro ps
  induction ps with
  | nil => intro d hd; exact hd
  | cons p t ih => intro d hd; exact ih _ (alookup_dinsert_isSome _ _ _ _ hd)

theorem alookup_attrFold_mem (k v : Str) :
    ∀ (ps : List (Str × Str)) (d : Entry), (k, v) ∈ ps →
      (alookup (lowerStr k) (ps.foldl (fun i kv => dinsert (lowerStr kv.1) kv.2 i) d)).isSome := by
  intro ps
  induction ps with
  | nil => intro d h; simp at h
  | cons p t ih =>
    intro d h
    rcases List.mem_cons.mp h with h | h
    · exact alookup_attrFold_isSome (lowerStr k) t _
        (by rw [← h]; simp [alookup_dinsert_self])
    · exact ih _ h

/-- Every pair captured from a nonempty attribute segment is stored in
the header dict under its LOWERCASED key (`info[key.lower()] = value`);
the later `tvg-name` fixup and `setdefault` calls never remove it. -/
theorem headerInfo_attr_lower (dur a nm k v : Str) (ha : a ≠ [])
    (hmem : (k, v) ∈ findAttrs a) :
    (alookup (lowerStr k) (headerInfo dur (some a) nm)).isSome := by
  unfold headerInfo
  apply alookup_dsetdefault_isSome
  apply alookup_dsetdefault_isSome
  apply alookup_dsetdefault_isSome
  simp only [ha, if_false]
  have base2 := alookup_attrFold_mem k v (findAttrs a)
    (dinsert (chars "name") (pyStrip nm) (dinsert (chars "duration") dur [])) hmem
  set info1 := (findAttrs a).foldl (fun i kv => dinsert (lowerStr kv.1) kv.2 i)
    (dinsert (chars "name") (pyStrip nm) (dinsert (chars "duration") dur []))
  cases hn : alookup (chars "tvg-name") info1 with
  | some w =>
    by_cases hw : w = [] <;> simp [hn, hw, base2, alookup_dinsert_isSome _ _ _ _ base2]
  | none => simp [hn, alookup_dinsert_isSome _ _ _ _ base2]

/-- The storage fact at the level of `_parse_extinf_line` itself: for a
line whose primary match carries a nonempty attribute segment, every
captured pair is present in the returned dict under its lowercased
key. -/
theorem parseExtinf_attr_lower (line d a nm k v : Str)
    (hm : extinfMatch line = some (d, some a, nm)) (ha : a ≠ [])
    (hmem : (k, v) ∈ findAttrs a) :
    (alookup (lowerStr k) (parseExtinfLine line)).isSome := by
  unfold parseExtinfLine
  rw [hm]
  exact alookup_dinsert_isSome _ _ _ _ (headerInfo_attr_lower d a nm k v ha hmem)

/-- Counterexample to C6 as stated: in
`#EXTINF:-1 tvg-name="it's x" group-title="G",N` the double-quoted
`tvg-name` value contains an apostrophe; the claim requires the full
value `it's x` up to the closing double quote, but the capture stops at
the apostrophe and stores `it`. -/
theorem claim_C6_counterexample :
    findAttrs (chars "tvg-name=\"it's x\" group-title=\"G\"") =
      [(chars "tvg-name", chars "it"), (chars "group-title", chars "G")] ∧
    alookup (chars "tvg-name")
      (parseExtinfLine (chars "#EXTINF:-1 tvg-name=\"it's x\" group-title=\"G\",N")) =
      some (chars "it") ∧
    chars "it" ≠ chars "it's x" := by
  decide

/-- C6 as amended, in four parts.  (1) Capture is complete: on an
attribute segment made of `key="value"` / `key='value'` items (either
quote kind, values free of both quote characters) the scan captures
every item, in order, with exactly its value.  (2) Every captured pair
is stored in the dict returned by `_parse_extinf_line` under its
LOWERCASED key.  (3) The lazy value capture runs from the opening quote
up to the FIRST quote character of either kind - not up to the closing
quote of the opening kind - and the scan resumes after that quote.
(4) Hence a captured value never contains `"` or `'` (so a double-quoted
value containing an apostrophe is truncated at the apostrophe, as the
counterexample shows concretely). -/
theorem claim_C6_amended :
    (∀ ps : List (Str × Char × Str),
        (∀ p ∈ ps, p.1 ≠ [] ∧ (∀ c ∈ p.1, isKeyChar c = true) ∧ isQuote p.2.1 = true ∧
          (∀ c ∈ p.2.2, isQuote c = false)) →
        findAttrs (renderAttrs ps) = ps.map (fun p => (p.1, p.2.2))) ∧
    (∀ line d a nm k v, extinfMatch line = some (d, some a, nm) → a ≠ [] →
        (k, v) ∈ findAttrs a →
        (alookup (lowerStr k) (parseExtinfLine line)).isSome) ∧
    (∀ key q w, key ≠ [] → (∀ c ∈ key, isKeyChar c = true) → isQuote q = true →
        (∃ c ∈ w, isQuote c = true) →
        findAttrs (key ++ '=' :: q :: w) =
          (key, w.takeWhile (fun c => ¬ isQuote c)) ::
            findAttrs ((w.dropWhile (fun c => ¬ isQuote c)).tail)) ∧
    (∀ a k v, (k, v) ∈ findAttrs a → ∀ c ∈ v, c ≠ '"' ∧ c ≠ '\'') := by
  refine ⟨findAttrs_render, parseExtinf_attr_lower, findAttrs_capture, ?_⟩
  intro a k v h c hc
  have := findAttrsGo_value_no_quote a.length a k v h c hc
  unfold isQuote at this
  constructor
  · intro he; rw [he] at this; simp at this
  · intro he; rw [he] at this; simp at this

/-- Witness for the amended C6 at concrete inputs: both items of the
rendered segment `tvg-id="c1" group-title='News'` are captured with
their full values; the uppercase key `TVG-NAME` is found in the parsed
dict under `tvg-name`; on the mixed-quote segment `a="it's"` the value
runs up to the apostrophe and the scan resumes after it; and the
characters of the truncated value are not quotes. -/
theorem claim_C6_amended_witness :
    findAttrs (renderAttrs [(chars "tvg-id", '"', chars "c1"),
        (chars "group-title", '\'', chars "News")]) =
      [(chars "tvg-id", chars "c1"), (chars "group-title", chars "News")] ∧
    (alookup (chars "tvg-name")
      (parseExtinfLine (chars "#EXTINF:-1 TVG-NAME=\"X\",N"))).isSome ∧
    findAttrs (chars "a" ++ '=' :: '"' :: chars "it's\"") =
      (chars "a", (chars "it's\"").takeWhile (fun c => ¬ isQuote c)) ::
        findAttrs (((chars "it's\"").dropWhile (fun c => ¬ isQuote c)).tail) ∧
    ('i' ≠ '"' ∧ 'i' ≠ '\'') :=
  ⟨claim_C6_amended.1 [(chars "tvg-id", '"', chars "c1"),
      (chars "group-title", '\'', chars "News")] (by decide),
   claim_C6_amended.2.1 (chars "#EXTINF:-1 TVG-NAME=\"X\",N") (chars "-1")
     (chars "TVG-NAME=\"X\"") (chars "N") (chars "TVG-NAME") (chars "X")
     (by decide) (by decide) (by decide),
   claim_C6_amended.2.2.1 (chars "a") '"' (chars "it's\"") (by decide) (by decide)
     (by decide) ⟨'\'', by decide, by decide⟩,
   claim_C6_amended.2.2.2 (chars "tvg-name=\"it's x\" group-title=\"G\"")
     (chars "tvg-name") (chars "it") (by decide) 'i' (by decide)⟩

/-! ## Claim C10: duration acceptance -/

/-- A well-formed duration as matched by `-?\d+`: an optional minus sign
followed by one or more decimal digits. -/
def durForm (l : Str) : Bool :=
  match l with
  | [] => false
  | c :: t => if c = '-' then !t.isEmpty && t.all Char.isDigit else (c :: t).all Char.isDigit

theorem all_takeWhile_sat {α : Type} (p : α → Bool) (l : List α) :
    (l.takeWhile p).all p = true := by
  rw [List.all_eq_true]
  intro a ha
  exact mem_takeWhile_sat p l a ha

theorem durForm_sign_digits (sign digits : Str)
    (hs : sign = [] ∨ sign = ['-']) (hne : digits ≠ [])
    (hd : digits.all Char.isDigit = true) : durForm (sign ++ digits) = true := by
  rcases hs with hs | hs <;> subst hs
  · cases digits with
    | nil => exact absurd rfl hne
    | cons c t =>
      have hc : Char.isDigit c = true := by
        have := List.all_eq_true.mp hd c (List.mem_cons_self c t)
        exact this
      have hcn : ¬ c = '-' := by
        intro he
        rw [he] at hc
        simp [Char.isDigit] at hc
      simpa [durForm, hcn] using hd
  · cases digits with
    | nil => exact absurd rfl hne
    | cons c t => simpa [durForm] using hd

/-- Every duration text produced by `durTake` has the shape `-?\d+`. -/
theorem durTake_durForm (rest dur r2 : Str) (h : durTake rest = some (dur, r2)) :
    durForm dur = true := by
  cases rest with
  | nil => simp [durTake] at h
  | cons c t =>
    simp only [durTake] at h
    split at h
    · rename_i hc
      split at h
      · exact absurd h (by simp)
      · rename_i hz
        have hd1 : '-' :: t.takeWhile Char.isDigit = dur := by
          simpa using congrArg (fun o => Option.map Prod.fst o) h
        rw [← hd1]
        have := durForm_sign_digits ['-'] (t.takeWhile Char.isDigit) (Or.inr rfl) hz
          (all_takeWhile_sat Char.isDigit t)
        simpa using this
    · rename_i hc
      split at h
      · exact absurd h (by simp)
      · rename_i hz
        have hd1 : (c :: t).takeWhile Char.isDigit = dur := by
          simpa using congrArg (fun o => Option.map Prod.fst o) h
        rw [← hd1]
        have := durForm_sign_digits [] ((c :: t).takeWhile Char.isDigit) (Or.inl rfl) hz
          (all_takeWhile_sat Char.isDigit (c :: t))
        simpa using this

/-- Whatever `extinfAfterDur` returns carries the duration it is
given. -/
theorem extinfAfterDur_fst (dur r2 d : Str) (a : Option Str) (nm : Str)
    (h : extinfAfterDur dur r2 = some (d, a, nm)) : d = dur := by
  unfold extinfAfterDur at h
  split at h
  · simpa using (congrArg (fun o => Option.map Prod.fst o) h).symm
  · split at h
    · split at h
      · exact absurd h (by simp)
      · simpa using (congrArg (fun o => Option.map Prod.fst o) h).symm
    · exact absurd h (by simp)
  · exact absurd h (by simp)

/-- Every duration accepted by the primary `#EXTINF` regex has the shape
`-?\d+`. -/
theorem extinfMatch_duration (line d : Str) (a : Option Str) (nm : Str)
    (h : extinfMatch line = some (d, a, nm)) : durForm d = true := by
  unfold extinfMatch at h
  by_cases hp : (chars "#EXTINF:").isPrefixOf line
  · simp only [hp, if_true] at h
    cases hD : durTake (line.drop 8) with
    | none => rw [hD] at h; exact absurd h (by simp)
    | some p =>
      obtain ⟨dur, r2⟩ := p
      rw [hD] at h
      rw [extinfAfterDur_fst dur r2 d a nm h]
      exact durTake_durForm (line.drop 8) dur r2 hD
  · simp [hp] at h

/-- C10: the `#EXTINF` duration is accepted only as an optional minus
sign followed by decimal digits (shown for both regex tiers); for a
fractional duration such as `#EXTINF:1.5,Name` or a non-numeric one such
as `#EXTINF:abc,Name` both tiers fail, the header parser yields the
empty pending dict, and the following URL line produces no entry. -/
theorem claim_C10 :
    (∀ line d a nm, extinfMatch line = some (d, a, nm) → durForm d = true) ∧
    extinfMatch (chars "#EXTINF:1.5,Name") = none ∧
    simpleExtinfMatch (chars "#EXTINF:1.5,Name") = none ∧
    parseExtinfLine (chars "#EXTINF:1.5,Name") = [] ∧
    extinfMatch (chars "#EXTINF:abc,Name") = none ∧
    simpleExtinfMatch (chars "#EXTINF:abc,Name") = none ∧
    parseExtinfLine (chars "#EXTINF:abc,Name") = [] ∧
    (parseContent [chars "#EXTM3U", chars "#EXTINF:1.5,Name", chars "http://u"]).channels
      = [] :=
  ⟨fun line d a nm h => extinfMatch_duration line d a nm h,
   by decide, by decide, by decide, by decide, by decide, by decide, by decide⟩

/-- Witness for C10's universally quantified conjunct at a concrete
accepted header line. -/
theorem claim_C10_witness :
    extinfMatch (chars "#EXTINF:-1,X") =
      some (chars "-1", none, chars "X") ∧ durForm (chars "-1") = true :=
  ⟨by decide, claim_C10.1 (chars "#EXTINF:-1,X") (chars "-1") none (chars "X") (by decide)⟩

/-! ## Byte-level text codecs

Python `bytes.decode(encoding)` (strict, `Option`-valued) and
`bytes.decode(encoding, errors="ignore")` (total) for the encodings the
detector and the chunked reader use.  Bytes are `Nat`s in `0..255`. -/

/-- Second-byte constraints of strict UTF-8 (RFC 3629 / CPython):
`E0` needs `A0..BF`, `ED` needs `80..9F` (no surrogates), `F0` needs
`90..BF`, `F4` needs `80..8F`, every other lead byte needs `80..BF`. -/
def utf8Snd (b b2 : Nat) : Bool :=
  if b = 0xE0 then 0xA0 ≤ b2 ∧ b2 ≤ 0xBF
  else if b = 0xED then 0x80 ≤ b2 ∧ b2 ≤ 0x9F
  else if b = 0xF0 then 0x90 ≤ b2 ∧ b2 ≤ 0xBF
  else if b = 0xF4 then 0x80 ≤ b2 ∧ b2 ≤ 0x8F
  else 0x80 ≤ b2 ∧ b2 ≤ 0xBF

/-- A UTF-8 continuation byte. -/
def utf8Cont (b : Nat) : Bool := 0x80 ≤ b ∧ b ≤ 0xBF

/-- `bytes.decode("utf-8", errors="ignore")`: invalid bytes are skipped;
on a malformed sequence the maximal valid subpart is skipped and
decoding resumes at the offending byte; a truncated sequence at the end
of the input is dropped. -/
def decodeUtf8IgnoreGo : Nat → List Nat → Str
  | 0, _ => []
  | _, [] => []
  | fuel + 1, b :: rest =>
    if b < 0x80 then Char.ofNat b :: decodeUtf8IgnoreGo fuel rest
    else if 0xC2 ≤ b ∧ b ≤ 0xDF then
      match rest with
      | b2 :: rest2 =>
        if utf8Cont b2 then
          Char.ofNat ((b - 0xC0) * 64 + (b2 - 0x80)) :: decodeUtf8IgnoreGo fuel rest2
        else decodeUtf8IgnoreGo fuel (b2 :: rest2)
      | [] => []
    else if 0xE0 ≤ b ∧ b ≤ 0xEF then
      match rest with
      | b2 :: rest2 =>
        if utf8Snd b b2 then
          match rest2 with
          | b3 :: rest3 =>
            if utf8Cont b3 then
              Char.ofNat ((b - 0xE0) * 4096 + (b2 - 0x80) * 64 + (b3 - 0x80)) ::
                decodeUtf8IgnoreGo fuel rest3
            else decodeUtf8IgnoreGo fuel (b3 :: rest3)
          | [] => []
        else decodeUtf8IgnoreGo fuel (b2 :: rest2)
      | [] => []
    else if 0xF0 ≤ b ∧ b ≤ 0xF4 then
      match rest with
      | b2 :: rest2 =>
        if utf8Snd b b2 then
          match rest2 with
          | b3 :: rest3 =>
            if utf8Cont b3 then
              match rest3 with
              | b4 :: rest4 =>
                if utf8Cont b4 then
                  Char.ofNat ((b - 0xF0) * 262144 + (b2 - 0x80) * 4096 +
                    (b3 - 0x80) * 64 + (b4 - 0x80)) :: decodeUtf8IgnoreGo fuel rest4
                else decodeUtf8IgnoreGo fuel (b4 :: rest4)
              | [] => []
            else decodeUtf8IgnoreGo fuel (b3 :: rest3)
          | [] => []
        else decodeUtf8IgnoreGo fuel (b2 :: rest2)
      | [] => []
    else decodeUtf8IgnoreGo fuel rest

def decodeUtf8Ignore (l : List Nat) : Str := decodeUtf8IgnoreGo l.length l


/-- `bytes.decode("utf-8")` (strict): `none` on any malformed or
truncated sequence. -/
def decodeUtf8Strict : List Nat → Option Str
  | [] => some []
  | b :: rest =>
    if b < 0x80 then (decodeUtf8Strict rest).map (Char.ofNat b :: ·)
    else if 0xC2 ≤ b ∧ b ≤ 0xDF then
      match rest with
      | b2 :: rest2 =>
        if utf8Cont b2 then
          (decodeUtf8Strict rest2).map (Char.ofNat ((b - 0xC0) * 64 + (b2 - 0x80)) :: ·)
        else none
      | [] => none
    else if 0xE0 ≤ b ∧ b ≤ 0xEF then
      match rest with
      | b2 :: rest2 =>
        if utf8Snd b b2 then
          match rest2 with
          | b3 :: rest3 =>
            if utf8Cont b3 then
              (decodeUtf8Strict rest3).map
                (Char.ofNat ((b - 0xE0) * 4096 + (b2 - 0x80) * 64 + (b3 - 0x80)) :: ·)
            else none
          | [] => none
        else none
      | [] => none
    else if 0xF0 ≤ b ∧ b ≤ 0xF4 then
      match rest with
      | b2 :: rest2 =>
        if utf8Snd b b2 then
          match rest2 with
          | b3 :: rest3 =>
            if utf8Cont b3 then
              match rest3 with
              | b4 :: rest4 =>
                if utf8Cont b4 then
                  (decodeUtf8Strict rest4).map
                    (Char.ofNat ((b - 0xF0) * 262144 + (b2 - 0x80) * 4096 +
                      (b3 - 0x80) * 64 + (b4 - 0x80)) :: ·)
                else none
              | [] => none
            else none
          | [] => none
        else none
      | [] => none
    else none


/-- `latin-1` / `iso-8859-1`: every byte maps to the code point of the
same value; decoding never fails. -/
def decodeLatin1 (b : List Nat) : Str := b.map Char.ofNat

/-- The `cp1252` byte map: identity outside `80..9F`; in `80..9F` the
Windows-1252 table, with `81`, `8D`, `8F`, `90`, `9D` undefined. -/
def cp1252Byte (b : Nat) : Option Nat :=
  if b < 0x80 ∨ 0xA0 ≤ b then some b
  else if b = 0x80 then some 0x20AC
  else if b = 0x82 then some 0x201A
  else if b = 0x83 then some 0x0192
  else if b = 0x84 then some 0x201E
  else if b = 0x85 then some 0x2026
  else if b = 0x86 then some 0x2020
  else if b = 0x87 then some 0x2021
  else if b = 0x88 then some 0x02C6
  else if b = 0x89 then some 0x2030
  else if b = 0x8A then some 0x0160
  else if b = 0x8B then some 0x2039
  else if b = 0x8C then some 0x0152
  else if b = 0x8E then some 0x017D
  else if b = 0x91 then some 0x2018
  else if b = 0x92 then some 0x2019
  else if b = 0x93 then some 0x201C
  else if b = 0x94 then some 0x201D
  else if b = 0x95 then some 0x2022
  else if b = 0x96 then some 0x2013
  else if b = 0x97 then some 0x2014
  else if b = 0x98 then some 0x02DC
  else if b = 0x99 then some 0x2122
  else if b = 0x9A then some 0x0161
  else if b = 0x9B then some 0x203A
  else if b = 0x9C then some 0x0153
  else if b = 0x9E then some 0x017E
  else if b = 0x9F then some 0x0178
  else none

def decodeCp1252Strict : List Nat → Option Str
  | [] => some []
  | b :: rest =>
    match cp1252Byte b with
    | some u => (decodeCp1252Strict rest).map (Char.ofNat u :: ·)
    | none => none

def decodeCp1252Ignore : List Nat → Str
  | [] => []
  | b :: rest =>
    match cp1252Byte b with
    | some u => Char.ofNat u :: decodeCp1252Ignore rest
    | none => decodeCp1252Ignore rest

/-- One UTF-16 code unit from two bytes, little- or big-endian. -/
def utf16Unit (le : Bool) (b1 b2 : Nat) : Nat :=
  if le then b1 + 256 * b2 else 256 * b1 + b2

def utf16UnitsStrict (le : Bool) : List Nat → Option (List Nat)
  | [] => some []
  | [_] => none
  | b1 :: b2 :: t => (utf16UnitsStrict le t).map (utf16Unit le b1 b2 :: ·)

def utf16UnitsIgnore (le : Bool) : List Nat → List Nat
  | [] => []
  | [_] => []
  | b1 :: b2 :: t => utf16Unit le b1 b2 :: utf16UnitsIgnore le t

/-- Combine a code-unit sequence, pairing surrogates; strict: a lone
surrogate is an error. -/
def combineSurrStrict : List Nat → Option Str
  | [] => some []
  | u :: t =>
    if u < 0xD800 ∨ 0xE000 ≤ u then (combineSurrStrict t).map (Char.ofNat u :: ·)
    else if u ≤ 0xDBFF then
      match t with
      | l :: t2 =>
        if 0xDC00 ≤ l ∧ l ≤ 0xDFFF then
          (combineSurrStrict t2).map
            (Char.ofNat (0x10000 + (u - 0xD800) * 1024 + (l - 0xDC00)) :: ·)
        else none
      | [] => none
    else none


def combineSurrIgnoreGo : Nat → List Nat → Str
  | 0, _ => []
  | _, [] => []
  | fuel + 1, u :: t =>
    if u < 0xD800 ∨ 0xE000 ≤ u then Char.ofNat u :: combineSurrIgnoreGo fuel t
    else if u ≤ 0xDBFF then
      match t with
      | l :: t2 =>
        if 0xDC00 ≤ l ∧ l ≤ 0xDFFF then
          Char.ofNat (0x10000 + (u - 0xD800) * 1024 + (l - 0xDC00)) :: combineSurrIgnoreGo fuel t2
        else combineSurrIgnoreGo fuel (l :: t2)
      | [] => []
    else combineSurrIgnoreGo fuel t

def combineSurrIgnore (l : List Nat) : Str := combineSurrIgnoreGo l.length l


def decodeUtf16PairStrict (le : Bool) (b : List Nat) : Option Str :=
  (utf16UnitsStrict le b).bind combineSurrStrict

def decodeUtf16PairIgnore (le : Bool) (b : List Nat) : Str :=
  combineSurrIgnore (utf16UnitsIgnore le b)

/-- The `utf-16` codec: a leading BOM selects the byte order and is
stripped; without a BOM the native (little-endian) order is assumed. -/
def decodeUtf16CodecStrict (b : List Nat) : Option Str :=
  if [0xFF, 0xFE].isPrefixOf b then decodeUtf16PairStrict true (b.drop 2)
  else if [0xFE, 0xFF].isPrefixOf b then decodeUtf16PairStrict false (b.drop 2)
  else decodeUtf16PairStrict true b

def decodeUtf16CodecIgnore (b : List Nat) : Str :=
  if [0xFF, 0xFE].isPrefixOf b then decodeUtf16PairIgnore true (b.drop 2)
  else if [0xFE, 0xFF].isPrefixOf b then decodeUtf16PairIgnore false (b.drop 2)
  else decodeUtf16PairIgnore true b

/-- `utf-8-sig`: strip one leading UTF-8 BOM from the data (per decode
call), then decode as UTF-8. -/
def stripU8Bom (b : List Nat) : List Nat :=
  if [0xEF, 0xBB, 0xBF].isPrefixOf b then b.drop 3 else b

/-- Strict decode dispatch over the encoding names the parser uses. -/
def pyDecodeStrict (enc : Str) (b : List Nat) : Option Str :=
  if enc = chars "utf-8" then decodeUtf8Strict b
  else if enc = chars "utf-16" then decodeUtf16CodecStrict b
  else if enc = chars "utf-16le" then decodeUtf16PairStrict true b
  else if enc = chars "utf-16be" then decodeUtf16PairStrict false b
  else if enc = chars "latin-1" ∨ enc = chars "iso-8859-1" then some (decodeLatin1 b)
  else if enc = chars "cp1252" then decodeCp1252Strict b
  else if enc = chars "utf-8-sig" then decodeUtf8Strict (stripU8Bom b)
  else none

/-- `errors="ignore"` decode dispatch (total). -/
def pyDecodeIgnore (enc : Str) (b : List Nat) : Str :=
  if enc = chars "utf-8" then decodeUtf8Ignore b
  else if enc = chars "utf-16" then decodeUtf16CodecIgnore b
  else if enc = chars "utf-16le" then decodeUtf16PairIgnore true b
  else if enc = chars "utf-16be" then decodeUtf16PairIgnore false b
  else if enc = chars "latin-1" ∨ enc = chars "iso-8859-1" then decodeLatin1 b
  else if enc = chars "cp1252" then decodeCp1252Ignore b
  else if enc = chars "utf-8-sig" then decodeUtf8Ignore (stripU8Bom b)
  else decodeUtf8Ignore b

/-! ## The encoding detector (`M3UParser._detect_encoding_from_bytes`) -/

/-- The fixed priority list of trial encodings (source line 390). -/
def encodingsToTry : List Str :=
  [chars "utf-8", chars "utf-16", chars "utf-16le", chars "utf-16be",
   chars "latin-1", chars "cp1252", chars "iso-8859-1"]

/-- The content test applied to a trial decode:
`"#EXTM3U" in decoded or "#EXTINF" in decoded`. -/
def looksLikeM3U (t : Str) : Bool :=
  containsSub (chars "#EXTM3U") t || containsSub (chars "#EXTINF") t

/-- The trial loop (source lines 392-399): return the first encoding
that decodes the sample without error and whose decoded text passes the
content test; fall through to `utf-8`. -/
def firstAccept (sample : List Nat) : List Str → Str
  | [] => chars "utf-8"
  | e :: rest =>
    match pyDecodeStrict e sample with
    | some t => if looksLikeM3U t then e else firstAccept sample rest
    | none => firstAccept sample rest

/-- `_detect_encoding_from_bytes`: BOM sniffing on the first 4 bytes,
then the trial loop on the first 1024 bytes.  Total by construction
(the Python `except Exception` fallback to `utf-8` has nothing to
catch here). -/
def detectEncoding (bytes : List Nat) : Str :=
  if [0xFF, 0xFE].isPrefixOf (bytes.take 4) then chars "utf-16le"
  else if [0xFE, 0xFF].isPrefixOf (bytes.take 4) then chars "utf-16be"
  else if [0xEF, 0xBB, 0xBF].isPrefixOf (bytes.take 4) then chars "utf-8-sig"
  else firstAccept (bytes.take 1024) encodingsToTry

/-- The detector as claim C4 words it: BOM cases on the initial bytes,
otherwise the first encoding of the fixed list under which the 1KB
sample decodes and contains `#EXTM3U` or `#EXTINF`, otherwise
`utf-8`. -/
def specDetectEncoding (bytes : List Nat) : Str :=
  if [0xFF, 0xFE].isPrefixOf bytes then chars "utf-16le"
  else if [0xFE, 0xFF].isPrefixOf bytes then chars "utf-16be"
  else if [0xEF, 0xBB, 0xBF].isPrefixOf bytes then chars "utf-8-sig"
  else
    match encodingsToTry.find? (fun e =>
        match pyDecodeStrict e (bytes.take 1024) with
        | some t => looksLikeM3U t
        | none => false) with
    | some e => e
    | none => chars "utf-8"

/-! ## Claim C4 -/

theorem isPrefixOf_take (l b : List Nat) (n : Nat) (h : l.length ≤ n) :
    l.isPrefixOf (b.take n) = l.isPrefixOf b := by
  induction l generalizing b n with
  | nil => simp [List.isPrefixOf]
  | cons a as ih =>
    cases b with
    | nil => simp [List.isPrefixOf]
    | cons c cs =>
      cases n with
      | zero => exact absurd h (by simp)
      | succ m =>
        simp only [List.take_succ_cons, List.isPrefixOf]
        rw [ih cs m (by simpa using h)]

theorem firstAccept_find (sample : List Nat) (L : List Str) :
    firstAccept sample L = (L.find? (fun e =>
      match pyDecodeStrict e sample with
      | some t => looksLikeM3U t
      | none => false)).getD (chars "utf-8") := by
  induction L with
  | nil => rfl
  | cons e rest ih =>
    unfold firstAccept
    cases hd : pyDecodeStrict e sample with
    | some t =>
      by_cases hl : looksLikeM3U t = true
      · rw [List.find?_cons_of_pos _ (by simp [hd, hl])]
        simp [hl]
      · rw [List.find?_cons_of_neg _ (by simp [hd, hl])]
        simp only [Bool.not_eq_true] at hl
        simp [hl, ih]
    | none =>
      rw [List.find?_cons_of_neg _ (by simp [hd])]
      exact ih

theorem mem_encodingsToTry_allowed (e : Str) (h : e ∈ encodingsToTry) :
    e ∈ [chars "utf-16le", chars "utf-16be", chars "utf-8-sig", chars "utf-8",
      chars "utf-16", chars "latin-1", chars "cp1252", chars "iso-8859-1"] := by
  simp only [encodingsToTry, List.mem_cons, List.not_mem_nil, or_false] at h
  rcases h with rfl | rfl | rfl | rfl | rfl | rfl | rfl <;> decide

/-- C4: the detector equals the spec's description - BOM cases first
(`FF FE` to utf-16le, `FE FF` to utf-16be, `EF BB BF` to utf-8-sig),
otherwise the first encoding of the fixed list under which the 1KB
sample strictly decodes and contains `#EXTM3U` or `#EXTINF`, otherwise
`utf-8` - and, being a total function, it always returns one of the
eight known encoding identifiers (never raises). -/
theorem claim_C4 (bytes : List Nat) :
    detectEncoding bytes = specDetectEncoding bytes ∧
    detectEncoding bytes ∈ [chars "utf-16le", chars "utf-16be", chars "utf-8-sig",
      chars "utf-8", chars "utf-16", chars "latin-1", chars "cp1252",
      chars "iso-8859-1"] := by
  have h1 := isPrefixOf_take [0xFF, 0xFE] bytes 4 (by decide)
  have h2 := isPrefixOf_take [0xFE, 0xFF] bytes 4 (by decide)
  have h3 := isPrefixOf_take [0xEF, 0xBB, 0xBF] bytes 4 (by decide)
  unfold detectEncoding specDetectEncoding
  rw [h1, h2, h3, firstAccept_find]
  split_ifs with hb1 hb2 hb3
  · exact ⟨rfl, by decide⟩
  · exact ⟨rfl, by decide⟩
  · exact ⟨rfl, by decide⟩
  · cases hf : encodingsToTry.find? (fun e =>
        match pyDecodeStrict e (bytes.take 1024) with
        | some t => looksLikeM3U t
        | none => false) with
    | some e =>
      exact ⟨rfl, mem_encodingsToTry_allowed e (List.mem_of_find?_eq_some hf)⟩
    | none => exact ⟨rfl, by decide⟩

/-- Witness for C4 at a concrete byte list with a UTF-16LE BOM. -/
theorem claim_C4_witness :
    detectEncoding [0xFF, 0xFE, 65, 0] = specDetectEncoding [0xFF, 0xFE, 65, 0] ∧
    detectEncoding [0xFF, 0xFE, 65, 0] ∈ [chars "utf-16le", chars "utf-16be",
      chars "utf-8-sig", chars "utf-8", chars "utf-16", chars "latin-1",
      chars "cp1252", chars "iso-8859-1"] :=
  claim_C4 [0xFF, 0xFE, 65, 0]

/-! ## The chunked reader (`M3UParser._parse_content_with_progress`)

The loop is modelled synchronously: the asynchronous `_should_cancel`
flag is a schedule `cancel : Nat → Bool` sampled at the top of each loop
iteration (source line 191), and the wall-clock part of the progress
condition (`current_time - last_progress_time > 0.5`, line 269) is an
oracle `oracle : Nat → Bool`.  Progress emissions are recorded as a
trace of `(percent, channels_processed)` pairs, assuming a progress
callback is attached. -/

/-- The byte-order-mark character stripped at source line 219. -/
def bomChar : Char := Char.ofNat 0xFEFF

/-- Python `text.split("\n")`: always returns at least one fragment. -/
def splitNL : Str → List Str
  | [] => [[]]
  | c :: t =>
    if c = '\n' then [] :: splitNL t
    else
      match splitNL t with
      | [] => [[c]]
      | l :: ls => (c :: l) :: ls

/-- The per-chunk text transformation (source lines 218-263): strip a
BOM when the line buffer is empty, prepend the buffer, split on
newlines, keep the last fragment as the new buffer, and feed the
complete lines to the line state machine. -/
def chunkCore (buf : Str) (ps : PState) (text0 : Str) : Str × PState :=
  let text := if buf = [] ∧ text0.head? = some bomChar then text0.tail else text0
  let lines := splitNL (buf ++ text)
  ((lines.getLast?).getD [], lines.dropLast.foldl processLine ps)

/-- The loop state of `_parse_content_with_progress`: bytes read so
far, the line buffer, the parsing state, the recorded progress
emissions, and the sampled cancellation flag. -/
structure LState where
  bytesRead : Nat
  buffer : Str
  ps : PState
  trace : List (Nat × Nat)
  cancelled : Bool
  deriving DecidableEq

def initLState : LState := ⟨0, [], initPState, [], false⟩

/-- One loop iteration on a non-empty chunk: decode it, run the line
machine, then emit progress when the channel counter is a multiple of
100 (`progress_update_interval`) or the 500ms timer fired (the oracle),
with `percent = min 100 (bytes_read * 100 / file_size)`. -/
def stepChunk (decodeFn : List Nat → Str) (oracle : Nat → Bool) (fileSize : Nat)
    (i : Nat) (chunk : List Nat) (ls : LState) : LState :=
  let bp := chunkCore ls.buffer ls.ps (decodeFn chunk)
  let bytes2 := ls.bytesRead + chunk.length
  let trace2 :=
    if bp.2.processed % 100 = 0 ∨ oracle i then
      ls.trace ++ [(min 100 (bytes2 * 100 / fileSize), bp.2.processed)]
    else ls.trace
  ⟨bytes2, bp.1, bp.2, trace2, ls.cancelled⟩

/-- The chunk loop: the cancellation flag is sampled before each read
(also once more after the last chunk, before the empty read would end
the loop). -/
def runChunks (decodeFn : List Nat → Str) (oracle cancel : Nat → Bool) (fileSize : Nat) :
    Nat → List (List Nat) → LState → LState
  | i, [], ls => if cancel i then { ls with cancelled := true } else ls
  | i, c :: rest, ls =>
    if cancel i then { ls with cancelled := true }
    else runChunks decodeFn oracle cancel fileSize (i + 1) rest
      (stepChunk decodeFn oracle fileSize i c ls)

/-- The value returned by a chunked parse, together with the state the
claims talk about: the sticky cancellation flag and the progress
trace. -/
structure ChunkResult where
  channels : List Entry
  categories : List (Str × List Entry)
  processed : Nat
  cancelled : Bool
  trace : List (Nat × Nat)
  deriving DecidableEq

/-- The epilogue (source lines 280-300): flush a leftover buffer line -
only as a URL completing a pending header, and only when not cancelled -
then always emit the final `(100, channels_processed)` progress
update. -/
def finalizeChunked (ls : LState) : ChunkResult :=
  let line := pyStrip ls.buffer
  let ls2 :=
    if line ≠ [] ∧ ls.cancelled = false then
      if ¬ (chars "#").isPrefixOf line ∧ ls.ps.pending ≠ [] then
        { ls with ps := addChannel ls.ps line }
      else ls
    else ls
  ⟨ls2.ps.channels, ls2.ps.categories, ls2.ps.processed, ls2.cancelled,
   ls2.trace ++ [(100, ls2.ps.processed)]⟩

/-- Split a sequence into successive chunks of `n` elements (the last
one may be short); `read` with `n = 0` returns nothing and ends the
loop at once. -/
def chunksOfGo {α : Type} (n : Nat) : Nat → List α → List (List α)
  | 0, _ => []
  | fuel + 1, l => if l.isEmpty ∨ n = 0 then [] else l.take n :: chunksOfGo n fuel (l.drop n)

def chunksOf {α : Type} (n : Nat) (l : List α) : List (List α) := chunksOfGo n l.length l

/-- `_parse_content_with_progress` over an in-memory byte sequence:
detect the encoding from the byte prefix, decode and process the chunks
(each decoded with `errors="ignore"`, which never fails, so the
fallback-encoding loop of lines 204-216 is dead), then run the
epilogue.  The `#EXTM3U` sniff over the first 1KB (lines 168-185) only
prints a warning and is omitted. -/
def parseChunkedBytes (n : Nat) (cancel oracle : Nat → Bool) (bytes : List Nat) :
    ChunkResult :=
  finalizeChunked (runChunks (pyDecodeIgnore (detectEncoding bytes)) oracle cancel
    bytes.length 0 (chunksOf n bytes) initLState)

/-! ## Line reassembly across chunk boundaries -/

theorem splitNL_ne_nil (s : Str) : splitNL s ≠ [] := by
  induction s with
  | nil => simp [splitNL]
  | cons c t ih =>
    simp only [splitNL]
    by_cases hc : c = '\n'
    · simp [hc]
    · simp only [hc, if_false]
      cases h : splitNL t with
      | nil => simp
      | cons l ls => simp

theorem splitNL_no_newline (s : Str) (h : ('\n' : Char) ∉ s) : splitNL s = [s] := by
  induction s with
  | nil => rfl
  | cons c t ih =>
    have hc : ¬ c = '\n' := fun he => h (by simp [he])
    have ht := ih (fun hm => h (by simp [hm]))
    simp [splitNL, hc, ht]

theorem mem_splitNL_no_newline (s : Str) : ∀ x ∈ splitNL s, ('\n' : Char) ∉ x := by
  induction s with
  | nil =>
    intro x hx
    simp only [splitNL, List.mem_singleton] at hx
    simp [hx]
  | cons c t ih =>
    intro x hx
    simp only [splitNL] at hx
    by_cases hc : c = '\n'
    · rw [if_pos hc] at hx
      rcases List.mem_cons.mp hx with hx | hx
      · simp [hx]
      · exact ih x hx
    · rw [if_neg hc] at hx
      cases h : splitNL t with
      | nil => exact absurd h (splitNL_ne_nil t)
      | cons l ls =>
        rw [h] at hx
        rcases List.mem_cons.mp hx with hx | hx
        · subst hx
          intro hm
          rcases List.mem_cons.mp hm with hm | hm
          · exact hc hm.symm
          · exact ih l (h ▸ List.mem_cons_self l ls) hm
        · exact ih x (h ▸ List.mem_cons_of_mem l hx)

/-- The key reassembly identity: splitting `s ++ t` is splitting `s`,
except that its last fragment is glued onto the front of `t` and split
with it. -/
theorem splitNL_append (s t : Str) :
    splitNL (s ++ t) =
      (splitNL s).dropLast ++ splitNL (((splitNL s).getLast?).getD [] ++ t) := by
  induction s with
  | nil => simp [splitNL]
  | cons c s' ih =>
    by_cases hc : c = '\n'
    · subst hc
      have h1 : splitNL (('\n' :: s') ++ t) = [] :: splitNL (s' ++ t) := by
        simp [splitNL]
      have h2 : splitNL ('\n' :: s') = [] :: splitNL s' := by
        simp [splitNL]
      rw [h1, h2, ih]
      cases hsp : splitNL s' with
      | nil => exact absurd hsp (splitNL_ne_nil s')
      | cons x xs =>
        cases xs with
        | nil => simp
        | cons y ys => simp [List.getLast?_cons_cons]
    · cases hsp : splitNL s' with
      | nil => exact absurd hsp (splitNL_ne_nil s')
      | cons x xs =>
        cases xs with
        | nil =>
          -- splitNL s' = [x]: the whole of s' is one fragment
          have h2 : splitNL (c :: s') = [c :: x] := by
            simp [splitNL, hc, hsp]
          rw [h2]
          have ihx : splitNL (s' ++ t) = splitNL (x ++ t) := by
            rw [ih, hsp]
            simp
          have hl : splitNL ((c :: x) ++ t) = splitNL (c :: (s' ++ t)) := by
            have : splitNL (c :: (x ++ t)) = splitNL (c :: (s' ++ t)) := by
              simp only [splitNL, hc, if_false, ihx]
            simpa using this
          rw [List.cons_append, ← hl]
          simp
        | cons y ys =>
          -- splitNL s' = x :: y :: ys
          have h2 : splitNL (c :: s') = (c :: x) :: y :: ys := by
            simp [splitNL, hc, hsp]
          have hA : splitNL (s' ++ t) =
              x :: ((y :: ys).dropLast ++ splitNL (((y :: ys).getLast?).getD [] ++ t)) := by
            rw [ih, hsp]
            simp [List.getLast?_cons_cons]
          have hL : splitNL ((c :: s') ++ t) =
              (c :: x) :: ((y :: ys).dropLast ++ splitNL (((y :: ys).getLast?).getD [] ++ t)) := by
            have : splitNL (c :: (s' ++ t)) =
                (c :: x) :: ((y :: ys).dropLast ++
                  splitNL (((y :: ys).getLast?).getD [] ++ t)) := by
              simp only [splitNL, hc, if_false, hA]
            simpa using this
          rw [hL, h2]
          simp [List.getLast?_cons_cons]

theorem chunkCore_noBom (buf : Str) (ps : PState) (t : Str) (h : bomChar ∉ t) :
    chunkCore buf ps t = (((splitNL (buf ++ t)).getLast?).getD [],
      (splitNL (buf ++ t)).dropLast.foldl processLine ps) := by
  unfold chunkCore
  have hcond : ¬ (buf = [] ∧ t.head? = some bomChar) := by
    rintro ⟨hb, hh⟩
    cases t with
    | nil => simp at hh
    | cons a tt =>
      simp only [List.head?_cons, Option.some.injEq] at hh
      exact h (by simp [hh])
  simp [hcond]

theorem chunkCore_assoc (buf : Str) (ps : PState) (t1 t2 : Str)
    (h1 : bomChar ∉ t1) (h2 : bomChar ∉ t2) :
    chunkCore (chunkCore buf ps t1).1 (chunkCore buf ps t1).2 t2 =
      chunkCore buf ps (t1 ++ t2) := by
  have h12 : bomChar ∉ t1 ++ t2 := by
    intro hm
    rcases List.mem_append.mp hm with hm | hm
    · exact h1 hm
    · exact h2 hm
  rw [chunkCore_noBom buf ps t1 h1, chunkCore_noBom _ _ _ h2, chunkCore_noBom _ _ _ h12]
  have hsp := splitNL_append (buf ++ t1) t2
  have hne := splitNL_ne_nil (((splitNL (buf ++ t1)).getLast?).getD [] ++ t2)
  have hlast : (splitNL ((buf ++ t1) ++ t2)).getLast? =
      (splitNL (((splitNL (buf ++ t1)).getLast?).getD [] ++ t2)).getLast? := by
    rw [hsp]
    exact List.getLast?_append_of_ne_nil _ hne
  have hdrop : (splitNL ((buf ++ t1) ++ t2)).dropLast =
      (splitNL (buf ++ t1)).dropLast ++
        (splitNL (((splitNL (buf ++ t1)).getLast?).getD [] ++ t2)).dropLast := by
    rw [hsp]
    exact List.dropLast_append_of_ne_nil _ hne
  rw [List.append_assoc] at hlast hdrop
  refine Prod.ext ?_ ?_
  · simp only
    rw [hlast]
  · simp only
    rw [hdrop, List.foldl_append]

/-- Pure fold of the per-chunk transformation over the decoded chunk
texts. -/
def coreFold : Str × PState → List Str → Str × PState
  | bp, [] => bp
  | bp, t :: rest => coreFold (chunkCore bp.1 bp.2 t) rest

theorem no_newline_buffer (buf t : Str) (hbom : bomChar ∉ t) :
    ('\n' : Char) ∉ (chunkCore buf ps t).1 := by
  rw [chunkCore_noBom _ _ _ hbom]
  simp only
  cases hgl : (splitNL (buf ++ t)).getLast? with
  | none => simp
  | some x =>
    simp only [Option.getD_some]
    exact mem_splitNL_no_newline (buf ++ t) x (List.mem_of_getLast?_eq_some hgl)

/-- Folding the chunk machine over a chunk-text decomposition equals
one pass over the concatenated text, as long as no fragment starts with
a byte-order mark and the starting buffer holds no newline. -/
theorem coreFold_flatten :
    ∀ (texts : List Str) (buf : Str) (ps : PState),
      ('\n' : Char) ∉ buf → (∀ t ∈ texts, bomChar ∉ t) →
      coreFold (buf, ps) texts = chunkCore buf ps texts.flatten := by
  intro texts
  induction texts with
  | nil =>
    intro buf ps hb ht
    show (buf, ps) = chunkCore buf ps []
    rw [chunkCore_noBom _ _ _ (by simp)]
    rw [List.append_nil, splitNL_no_newline buf hb]
    simp
  | cons t rest ih =>
    intro buf ps hb ht
    have hbt : bomChar ∉ t := ht t (List.mem_cons_self t rest)
    have hrest : ∀ x ∈ rest, bomChar ∉ x := fun x hx => ht x (List.mem_cons_of_mem t hx)
    have hflat : bomChar ∉ rest.flatten := by
      intro hm
      rcases List.mem_flatten.mp hm with ⟨x, hx, hmx⟩
      exact hrest x hx hmx
    show coreFold (chunkCore buf ps t) rest = chunkCore buf ps (t :: rest).flatten
    have hstep : coreFold (chunkCore buf ps t) rest =
        coreFold ((chunkCore buf ps t).1, (chunkCore buf ps t).2) rest := by rfl
    rw [hstep, ih _ _ (no_newline_buffer buf t hbt) hrest,
      chunkCore_assoc buf ps t rest.flatten hbt hflat]
    rfl

/-- With the cancellation flag never set, the loop's buffer and parse
state are the pure fold of the decoded chunks, and the flag stays as it
was. -/
theorem runChunks_noCancel (d : List Nat → Str) (o : Nat → Bool) (fs : Nat) :
    ∀ (chunks : List (List Nat)) (i : Nat) (ls : LState),
      ((runChunks d o (fun _ => false) fs i chunks ls).buffer,
       (runChunks d o (fun _ => false) fs i chunks ls).ps) =
        coreFold (ls.buffer, ls.ps) (chunks.map d) ∧
      (runChunks d o (fun _ => false) fs i chunks ls).cancelled = ls.cancelled := by
  intro chunks
  induction chunks with
  | nil => intro i ls; simp [runChunks, coreFold]
  | cons c rest ih =>
    intro i ls
    have hun : runChunks d o (fun _ => false) fs i (c :: rest) ls =
        runChunks d o (fun _ => false) fs (i + 1) rest (stepChunk d o fs i c ls) := rfl
    rw [hun]
    obtain ⟨h1, h2⟩ := ih (i + 1) (stepChunk d o fs i c ls)
    refine ⟨?_, by rw [h2]; rfl⟩
    rw [h1]
    rfl

theorem chunksOfGo_flatten {α : Type} (n : Nat) :
    ∀ (fuel : Nat) (l : List α), n ≠ 0 → l.length ≤ fuel →
      (chunksOfGo n fuel l).flatten = l := by
  intro fuel
  induction fuel with
  | zero =>
    intro l hn h
    have : l = [] := List.length_eq_zero.mp (Nat.le_zero.mp h)
    subst this
    rfl
  | succ m ih =>
    intro l hn h
    simp only [chunksOfGo]
    by_cases he : l.isEmpty = true ∨ n = 0
    · rw [if_pos he]
      rcases he with he | he
      · rw [List.isEmpty_iff.mp he]
        rfl
      · exact absurd he hn
    · rw [if_neg he]
      have hlen : (l.drop n).length ≤ m := by
        push_neg at he
        have hl : 0 < l.length := by
          cases l with
          | nil => simp at he
          | cons a t => simp
        simp only [List.length_drop]
        omega
      rw [List.flatten_cons, ih (l.drop n) hn hlen, List.take_append_drop]

theorem flatten_chunksOf {α : Type} (n : Nat) (hn : n ≠ 0) (l : List α) :
    (chunksOf n l).flatten = l :=
  chunksOfGo_flatten n l.length l hn le_rfl

theorem mem_of_mem_chunksOf {α : Type} (n : Nat) (hn : n ≠ 0) (l : List α)
    (c : List α) (hc : c ∈ chunksOf n l) (x : α) (hx : x ∈ c) : x ∈ l := by
  have := List.mem_flatten.mpr ⟨c, hc, hx⟩
  rwa [flatten_chunksOf n hn l] at this

/-! ## ASCII inputs decode chunk-independently -/

theorem decodeUtf8IgnoreGo_ascii :
    ∀ (fuel : Nat) (l : List Nat), l.length ≤ fuel → (∀ b ∈ l, b < 128) →
      decodeUtf8IgnoreGo fuel l = l.map Char.ofNat := by
  intro fuel
  induction fuel with
  | zero =>
    intro l h hb
    rw [List.length_eq_zero.mp (Nat.le_zero.mp h)]
    rfl
  | succ m ih =>
    intro l h hb
    cases l with
    | nil => rfl
    | cons b rest =>
      have hb0 : b < 128 := hb b (List.mem_cons_self b rest)
      have hrest : decodeUtf8IgnoreGo m rest = rest.map Char.ofNat :=
        ih rest (by simpa using Nat.lt_succ_iff.mp (Nat.lt_of_lt_of_le (by simp) h))
          (fun x hx => hb x (List.mem_cons_of_mem b hx))
      simp only [decodeUtf8IgnoreGo, hb0, if_pos, List.map_cons, hrest]

theorem decodeUtf8Ignore_ascii (l : List Nat) (hb : ∀ b ∈ l, b < 128) :
    decodeUtf8Ignore l = l.map Char.ofNat :=
  decodeUtf8IgnoreGo_ascii l.length l le_rfl hb

theorem decodeUtf8Strict_ascii (l : List Nat) (hb : ∀ b ∈ l, b < 128) :
    decodeUtf8Strict l = some (l.map Char.ofNat) := by
  induction l with
  | nil => rfl
  | cons b rest ih =>
    have hb0 : b < 128 := hb b (List.mem_cons_self b rest)
    have hrest := ih (fun x hx => hb x (List.mem_cons_of_mem b hx))
    unfold decodeUtf8Strict
    rw [if_pos hb0, hrest]
    rfl

theorem decodeCp1252Strict_ascii (l : List Nat) (hb : ∀ b ∈ l, b < 128) :
    decodeCp1252Strict l = some (l.map Char.ofNat) := by
  induction l with
  | nil => rfl
  | cons b rest ih =>
    have hb0 : b < 128 := hb b (List.mem_cons_self b rest)
    have hrest := ih (fun x hx => hb x (List.mem_cons_of_mem b hx))
    have hmap : cp1252Byte b = some b := by
      unfold cp1252Byte
      rw [if_pos (Or.inl hb0)]
    simp only [decodeCp1252Strict, hmap, hrest]
    rfl

/-- A successful substring test pins the needle's first character into
the haystack. -/
theorem containsSub_head_mem (c : Char) (nd hay : Str)
    (h : containsSub (c :: nd) hay = true) : c ∈ hay := by
  induction hay with
  | nil => simp [containsSub, List.isPrefixOf] at h
  | cons a t ih =>
    simp only [containsSub, Bool.or_eq_true] at h
    rcases h with h | h
    · have hpre := List.isPrefixOf_iff_prefix.mp h
      have : c ∈ a :: t := hpre.subset (List.mem_cons_self c nd)
      exact this
    · exact List.mem_cons_of_mem a (ih h)

theorem utf16UnitsStrict_ascii_bound (le : Bool) :
    ∀ (fuel : Nat) (bs : List Nat) (units : List Nat), bs.length ≤ fuel →
      (∀ b ∈ bs, 1 ≤ b ∧ b ≤ 127) → utf16UnitsStrict le bs = some units →
      ∀ u ∈ units, 257 ≤ u ∧ u ≤ 32639 := by
  intro fuel
  induction fuel with
  | zero =>
    intro bs units h hb he
    rw [List.length_eq_zero.mp (Nat.le_zero.mp h)] at he
    simp only [utf16UnitsStrict, Option.some.injEq] at he
    subst he
    simp
  | succ m ih =>
    intro bs units h hb he
    match bs with
    | [] =>
      simp only [utf16UnitsStrict, Option.some.injEq] at he
      subst he
      simp
    | [b] =>
      rw [show utf16UnitsStrict le [b] = none from rfl] at he
      exact Option.noConfusion he
    | b1 :: b2 :: t =>
      unfold utf16UnitsStrict at he
      cases ht : utf16UnitsStrict le t with
      | none => rw [ht] at he; simp at he
      | some us =>
        rw [ht] at he
        have he2 : utf16Unit le b1 b2 :: us = units := by simpa using he
        subst he2
        intro u hu
        rcases List.mem_cons.mp hu with hu | hu
        · subst hu
          have h1 := hb b1 (by simp)
          have h2 := hb b2 (by simp)
          unfold utf16Unit
          cases le <;> simp <;> omega
        · exact ih t us (by simp at h; omega) (fun x hx => hb x (by simp [hx])) ht u hu

theorem combineSurrStrict_below (units : List Nat) (h : ∀ u ∈ units, u < 0xD800) :
    combineSurrStrict units = some (units.map Char.ofNat) := by
  induction units with
  | nil => rfl
  | cons u t ih =>
    have hu : u < 0xD800 := h u (List.mem_cons_self u t)
    have ht := ih (fun x hx => h x (List.mem_cons_of_mem u hx))
    unfold combineSurrStrict
    rw [if_pos (Or.inl hu), ht]
    rfl

theorem char_ofNat_toNat (n : Nat) (h : n.isValidChar) : (Char.ofNat n).toNat = n := by
  simp only [Char.ofNat, h, dif_pos, Char.toNat, Char.ofNatAux]
  rfl

/-- Every character of a UTF-16 decode of NUL-free ASCII bytes has a
code point of at least 257, so the text cannot contain `#`. -/
theorem utf16PairStrict_no_hash (le : Bool) (bs : List Nat)
    (hb : ∀ b ∈ bs, 1 ≤ b ∧ b ≤ 127) (t : Str)
    (he : decodeUtf16PairStrict le bs = some t) : ('#' : Char) ∉ t := by
  unfold decodeUtf16PairStrict at he
  cases hu : utf16UnitsStrict le bs with
  | none => rw [hu] at he; simp at he
  | some units =>
    rw [hu] at he
    have hbound := utf16UnitsStrict_ascii_bound le bs.length bs units le_rfl hb hu
    have hbelow : ∀ u ∈ units, u < 0xD800 := fun u hmem => by
      have := hbound u hmem
      omega
    rw [Option.some_bind, combineSurrStrict_below units hbelow] at he
    have ht : t = units.map Char.ofNat := by
      simpa using he.symm
    subst ht
    intro hm
    rcases List.mem_map.mp hm with ⟨u, hu2, hequ⟩
    have hv : u.isValidChar := Or.inl (hbelow u hu2)
    have : ('#' : Char).toNat = u := by
      rw [← hequ, char_ofNat_toNat u hv]
    have h257 := (hbound u hu2).1
    rw [show ('#' : Char).toNat = 35 from rfl] at this
    omega

theorem looksLike_false_of_no_hash (t : Str) (h : ('#' : Char) ∉ t) :
    looksLikeM3U t = false := by
  cases hv : looksLikeM3U t with
  | false => rfl
  | true =>
    exfalso
    unfold looksLikeM3U at hv
    rcases Bool.or_eq_true_iff.mp hv with hc | hc
    · exact h (containsSub_head_mem '#' (chars "EXTM3U") t hc)
    · exact h (containsSub_head_mem '#' (chars "EXTINF") t hc)

/-- On NUL-free ASCII input the detector always chooses `utf-8`: no BOM
can occur, the UTF-16 trial decodes contain no ASCII characters at all,
and the single-byte trials all decode to the same text as UTF-8. -/
theorem detectEncoding_ascii (bytes : List Nat) (hb : ∀ b ∈ bytes, 1 ≤ b ∧ b ≤ 127) :
    detectEncoding bytes = chars "utf-8" := by
  have hsample : ∀ b ∈ bytes.take 1024, 1 ≤ b ∧ b ≤ 127 :=
    fun b h => hb b (List.mem_of_mem_take h)
  have hnoPre : ∀ (p bs : List Nat), (∀ b ∈ bs, 1 ≤ b ∧ b ≤ 127) →
      (∃ x ∈ p, 128 ≤ x) → ¬ (p.isPrefixOf bs = true) := by
    rintro p bs hbs ⟨x, hxp, hx⟩ hc
    have hpre := List.isPrefixOf_iff_prefix.mp hc
    have := hbs x (hpre.subset hxp)
    omega
  have htk : ∀ b ∈ bytes.take 4, 1 ≤ b ∧ b ≤ 127 :=
    fun b h => hb b (List.mem_of_mem_take h)
  unfold detectEncoding
  rw [if_neg (hnoPre [0xFF, 0xFE] (bytes.take 4) htk ⟨0xFF, by simp, by omega⟩),
    if_neg (hnoPre [0xFE, 0xFF] (bytes.take 4) htk ⟨0xFE, by simp, by omega⟩),
    if_neg (hnoPre [0xEF, 0xBB, 0xBF] (bytes.take 4) htk ⟨0xEF, by simp, by omega⟩)]
  have hlt : ∀ b ∈ bytes.take 1024, b < 128 := fun b h => by
    have := hsample b h
    omega
  have hutf8 : pyDecodeStrict (chars "utf-8") (bytes.take 1024) =
      some ((bytes.take 1024).map Char.ofNat) := by
    have h1 : pyDecodeStrict (chars "utf-8") (bytes.take 1024) =
        decodeUtf8Strict (bytes.take 1024) := rfl
    rw [h1]
    exact decodeUtf8Strict_ascii _ hlt
  have hfa : ∀ (e : Str) (rest : List Str), firstAccept (bytes.take 1024) (e :: rest) =
      match pyDecodeStrict e (bytes.take 1024) with
      | some t => if looksLikeM3U t then e else firstAccept (bytes.take 1024) rest
      | none => firstAccept (bytes.take 1024) rest := fun e rest => rfl
  have hstepN : ∀ (e : Str) (rest : List Str), pyDecodeStrict e (bytes.take 1024) = none →
      firstAccept (bytes.take 1024) (e :: rest) = firstAccept (bytes.take 1024) rest := by
    intro e rest h
    rw [hfa, h]
  have hstepF : ∀ (e : Str) (rest : List Str) (t : Str),
      pyDecodeStrict e (bytes.take 1024) = some t → looksLikeM3U t = false →
      firstAccept (bytes.take 1024) (e :: rest) = firstAccept (bytes.take 1024) rest := by
    intro e rest t h hl
    rw [hfa, h]
    show (if looksLikeM3U t = true then e else firstAccept (bytes.take 1024) rest) =
      firstAccept (bytes.take 1024) rest
    rw [hl]
    simp
  have hstepT : ∀ (e : Str) (rest : List Str) (t : Str),
      pyDecodeStrict e (bytes.take 1024) = some t → looksLikeM3U t = true →
      firstAccept (bytes.take 1024) (e :: rest) = e := by
    intro e rest t h hl
    rw [hfa, h]
    show (if looksLikeM3U t = true then e else firstAccept (bytes.take 1024) rest) = e
    rw [hl]
    simp
  rw [show encodingsToTry = chars "utf-8" :: chars "utf-16" :: chars "utf-16le" ::
    chars "utf-16be" :: chars "latin-1" :: chars "cp1252" :: chars "iso-8859-1" :: []
    from rfl]
  cases hm : looksLikeM3U ((bytes.take 1024).map Char.ofNat) with
  | true => exact hstepT _ _ _ hutf8 hm
  | false =>
    rw [hstepF _ _ _ hutf8 hm]
    -- utf-16: codec dispatch, no BOM possible, little-endian pair decode
    have h16eq : pyDecodeStrict (chars "utf-16") (bytes.take 1024) =
        decodeUtf16PairStrict true (bytes.take 1024) := by
      have h1 : pyDecodeStrict (chars "utf-16") (bytes.take 1024) =
          decodeUtf16CodecStrict (bytes.take 1024) := rfl
      rw [h1]
      unfold decodeUtf16CodecStrict
      rw [if_neg (hnoPre [0xFF, 0xFE] _ hsample ⟨0xFF, by simp, by omega⟩),
        if_neg (hnoPre [0xFE, 0xFF] _ hsample ⟨0xFE, by simp, by omega⟩)]
    have hskip16 : ∀ (le : Bool) (e : Str) (rest : List Str),
        pyDecodeStrict e (bytes.take 1024) = decodeUtf16PairStrict le (bytes.take 1024) →
        firstAccept (bytes.take 1024) (e :: rest) = firstAccept (bytes.take 1024) rest := by
      intro le e rest heq
      cases h16 : decodeUtf16PairStrict le (bytes.take 1024) with
      | none => exact hstepN e rest (heq.trans h16)
      | some t =>
        exact hstepF e rest t (heq.trans h16)
          (looksLike_false_of_no_hash t (utf16PairStrict_no_hash le _ hsample t h16))
    rw [hskip16 true _ _ h16eq,
      hskip16 true (chars "utf-16le") _
        (show pyDecodeStrict (chars "utf-16le") (bytes.take 1024) =
          decodeUtf16PairStrict true (bytes.take 1024) from rfl),
      hskip16 false (chars "utf-16be") _
        (show pyDecodeStrict (chars "utf-16be") (bytes.take 1024) =
          decodeUtf16PairStrict false (bytes.take 1024) from rfl)]
    -- latin-1 decodes to the very same text as utf-8
    have hlatin : pyDecodeStrict (chars "latin-1") (bytes.take 1024) =
        some ((bytes.take 1024).map Char.ofNat) := rfl
    rw [hstepF _ _ _ hlatin hm]
    have hcp : pyDecodeStrict (chars "cp1252") (bytes.take 1024) =
        some ((bytes.take 1024).map Char.ofNat) := by
      have h1 : pyDecodeStrict (chars "cp1252") (bytes.take 1024) =
          decodeCp1252Strict (bytes.take 1024) := rfl
      rw [h1]
      exact decodeCp1252Strict_ascii _ hlt
    rw [hstepF _ _ _ hcp hm]
    have hiso : pyDecodeStrict (chars "iso-8859-1") (bytes.take 1024) =
        some ((bytes.take 1024).map Char.ofNat) := rfl
    rw [hstepF _ _ _ hiso hm]
    rfl

/-! ## Claim C3 -/

theorem finalizeChunked_proj (ls ls' : LState) (hbuf : ls.buffer = ls'.buffer)
    (hps : ls.ps = ls'.ps) (hc : ls.cancelled = ls'.cancelled) :
    (finalizeChunked ls).channels = (finalizeChunked ls').channels ∧
    (finalizeChunked ls).categories = (finalizeChunked ls').categories ∧
    (finalizeChunked ls).processed = (finalizeChunked ls').processed := by
  unfold finalizeChunked
  dsimp only
  rw [hbuf, hps, hc]
  split_ifs <;> refine ⟨?_, ?_, ?_⟩ <;> first | rfl | rw [hps]

theorem flatten_map_map {α β : Type} (f : α → β) (L : List (List α)) :
    (L.map (List.map f)).flatten = (L.flatten).map f := by
  induction L with
  | nil => rfl
  | cons c t ih => simp only [List.map_cons, List.flatten_cons, List.map_append, ih]

/-- The loop state reached by a cancel-free chunked parse of NUL-free
ASCII bytes is independent of the chunk size: it is the one-pass state
over the full decoded text. -/
theorem chunked_ascii_normal (n : Nat) (hn : n ≠ 0) (o : Nat → Bool) (bytes : List Nat)
    (hb : ∀ b ∈ bytes, 1 ≤ b ∧ b ≤ 127) :
    ((runChunks (pyDecodeIgnore (detectEncoding bytes)) o (fun _ => false)
        bytes.length 0 (chunksOf n bytes) initLState).buffer,
     (runChunks (pyDecodeIgnore (detectEncoding bytes)) o (fun _ => false)
        bytes.length 0 (chunksOf n bytes) initLState).ps) =
      chunkCore [] initPState (bytes.map Char.ofNat) ∧
    (runChunks (pyDecodeIgnore (detectEncoding bytes)) o (fun _ => false)
        bytes.length 0 (chunksOf n bytes) initLState).cancelled = false := by
  have hdet := detectEncoding_ascii bytes hb
  have hdec : ∀ c : List Nat, (∀ x ∈ c, x < 128) →
      pyDecodeIgnore (detectEncoding bytes) c = c.map Char.ofNat := by
    intro c hc
    rw [hdet]
    have h1 : pyDecodeIgnore (chars "utf-8") c = decodeUtf8Ignore c := rfl
    rw [h1]
    exact decodeUtf8Ignore_ascii c hc
  have hmapdec : (chunksOf n bytes).map (pyDecodeIgnore (detectEncoding bytes)) =
      (chunksOf n bytes).map (List.map Char.ofNat) := by
    apply List.map_congr_left
    intro c hc
    exact hdec c (fun x hx => by
      have := hb x (mem_of_mem_chunksOf n hn bytes c hc x hx)
      omega)
  obtain ⟨h1, h2⟩ := runChunks_noCancel (pyDecodeIgnore (detectEncoding bytes)) o
    bytes.length (chunksOf n bytes) 0 initLState
  refine ⟨?_, h2⟩
  rw [h1]
  show coreFold ([], initPState) _ = _
  rw [hmapdec, coreFold_flatten _ [] initPState (by simp) ?bom]
  case bom =>
    intro t ht hmem
    rcases List.mem_map.mp ht with ⟨c, hc, rfl⟩
    rcases List.mem_map.mp hmem with ⟨x, hx, hequ⟩
    have hxb := hb x (mem_of_mem_chunksOf n hn bytes c hc x hx)
    have hval : x.isValidChar := Or.inl (by omega)
    have : bomChar.toNat = x := by rw [← hequ, char_ofNat_toNat x hval]
    rw [show bomChar.toNat = 65279 from rfl] at this
    omega
  rw [flatten_map_map, flatten_chunksOf n hn bytes]

/-- Counterexample input for C3: `#EXTINF:-1,ABé` followed by a URL,
UTF-8 encoded.  The two-byte encoding of `é` (`C3 A9`) straddles a
7-byte chunk boundary, and per-chunk `errors="ignore"` decoding drops
it, so chunk size 7 yields the name `AB` where chunk size 32768 yields
`ABé`. -/
def c3InputBytes : List Nat :=
  [35, 69, 88, 84, 73, 78, 70, 58, 45, 49, 44, 65, 66, 195, 169, 10,
   104, 116, 116, 112, 58, 47, 47, 117]

/-- Counterexample to C3 as stated: on a concrete byte sequence,
parsing with chunk size 7 and with chunk size 32KB produce different
entry lists. -/
theorem claim_C3_counterexample :
    (parseChunkedBytes 7 (fun _ => false) (fun _ => false) c3InputBytes).channels ≠
      (parseChunkedBytes 32768 (fun _ => false) (fun _ => false) c3InputBytes).channels := by
  decide

/-- C3 as amended: chunk-boundary invariance holds for byte sequences
whose bytes are all in `1..127` (NUL-free ASCII, where per-chunk
decoding cannot straddle a multi-byte character and no byte-order mark
can appear): for any two nonzero chunk sizes, and in particular 7 and
32768, the chunked parses produce identical entry lists, category
indexes and counters. -/
theorem claim_C3_amended (n1 n2 : Nat) (h1 : n1 ≠ 0) (h2 : n2 ≠ 0)
    (o1 o2 : Nat → Bool) (bytes : List Nat) (hb : ∀ b ∈ bytes, 1 ≤ b ∧ b ≤ 127) :
    (parseChunkedBytes n1 (fun _ => false) o1 bytes).channels =
      (parseChunkedBytes n2 (fun _ => false) o2 bytes).channels ∧
    (parseChunkedBytes n1 (fun _ => false) o1 bytes).categories =
      (parseChunkedBytes n2 (fun _ => false) o2 bytes).categories ∧
    (parseChunkedBytes n1 (fun _ => false) o1 bytes).processed =
      (parseChunkedBytes n2 (fun _ => false) o2 bytes).processed := by
  obtain ⟨ha1, ha2⟩ := chunked_ascii_normal n1 h1 o1 bytes hb
  obtain ⟨hb1, hb2⟩ := chunked_ascii_normal n2 h2 o2 bytes hb
  unfold parseChunkedBytes
  apply finalizeChunked_proj
  · have := congrArg Prod.fst (ha1.trans hb1.symm)
    simpa using this
  · have := congrArg Prod.snd (ha1.trans hb1.symm)
    simpa using this
  · rw [ha2, hb2]

/-- Witness for the amended C3 at a concrete ASCII playlist, with chunk
sizes 7 and 32768 as in the claim. -/
theorem claim_C3_amended_witness :
    (parseChunkedBytes 7 (fun _ => false) (fun _ => false)
        ((chars "#EXTM3U\n#EXTINF:-1,A\nhttp://u\n").map Char.toNat)).channels =
      (parseChunkedBytes 32768 (fun _ => false) (fun _ => false)
        ((chars "#EXTM3U\n#EXTINF:-1,A\nhttp://u\n").map Char.toNat)).channels ∧
    (parseChunkedBytes 7 (fun _ => false) (fun _ => false)
        ((chars "#EXTM3U\n#EXTINF:-1,A\nhttp://u\n").map Char.toNat)).categories =
      (parseChunkedBytes 32768 (fun _ => false) (fun _ => false)
        ((chars "#EXTM3U\n#EXTINF:-1,A\nhttp://u\n").map Char.toNat)).categories ∧
    (parseChunkedBytes 7 (fun _ => false) (fun _ => false)
        ((chars "#EXTM3U\n#EXTINF:-1,A\nhttp://u\n").map Char.toNat)).processed =
      (parseChunkedBytes 32768 (fun _ => false) (fun _ => false)
        ((chars "#EXTM3U\n#EXTINF:-1,A\nhttp://u\n").map Char.toNat)).processed :=
  claim_C3_amended 7 32768 (by decide) (by decide) (fun _ => false) (fun _ => false)
    ((chars "#EXTM3U\n#EXTINF:-1,A\nhttp://u\n").map Char.toNat) (by decide)

/-! ## Claim C7: cancellation -/

theorem runChunks_nil_eq (d : List Nat → Str) (o cf : Nat → Bool) (fs i : Nat)
    (ls : LState) :
    runChunks d o cf fs i [] ls =
      (if cf i = true then { ls with cancelled := true } else ls) := rfl

theorem runChunks_cons_eq (d : List Nat → Str) (o cf : Nat → Bool) (fs i : Nat)
    (c : List Nat) (rest : List (List Nat)) (ls : LState) :
    runChunks d o cf fs i (c :: rest) ls =
      (if cf i = true then { ls with cancelled := true }
       else runChunks d o cf fs (i + 1) rest (stepChunk d o fs i c ls)) := rfl

/-- With a cancellation flag that turns true at step `k` (and stays
true), the loop runs exactly the first `k - i` chunks from step `i` and
then breaks with the flag recorded. -/
theorem runChunks_cancelAt (d : List Nat → Str) (o : Nat → Bool) (fs k : Nat) :
    ∀ (chunks : List (List Nat)) (i : Nat) (ls : LState), i ≤ k →
      k - i ≤ chunks.length →
      runChunks d o (fun j => decide (k ≤ j)) fs i chunks ls =
        { runChunks d o (fun _ => false) fs i (chunks.take (k - i)) ls with
          cancelled := true } := by
  intro chunks
  induction chunks with
  | nil =>
    intro i ls hik hlen
    have hki : k = i := by simp at hlen; omega
    have hd : decide (k ≤ i) = true := decide_eq_true (by omega)
    have h0 : k - i = 0 := by omega
    rw [h0, List.take_nil, runChunks_nil_eq, runChunks_nil_eq,
      if_pos (show (fun j => decide (k ≤ j)) i = true by simpa using hd),
      if_neg (show ¬ ((fun _ : Nat => false) i = true) by simp)]
  | cons c rest ih =>
    intro i ls hik hlen
    by_cases hki : k = i
    · have hd : decide (k ≤ i) = true := decide_eq_true (by omega)
      have h0 : k - i = 0 := by omega
      rw [h0, show (c :: rest).take 0 = [] from rfl, runChunks_cons_eq, runChunks_nil_eq,
        if_pos (show (fun j => decide (k ≤ j)) i = true by simpa using hd),
        if_neg (show ¬ ((fun _ : Nat => false) i = true) by simp)]
    · have hd : decide (k ≤ i) = false := decide_eq_false (by omega)
      have htk : k - i = (k - (i + 1)) + 1 := by omega
      rw [htk, List.take_succ_cons, runChunks_cons_eq, runChunks_cons_eq,
        if_neg (show ¬ ((fun j => decide (k ≤ j)) i = true) by simp [hd]),
        if_neg (show ¬ ((fun _ : Nat => false) i = true) by simp)]
      exact ih (i + 1) (stepChunk d o fs i c ls) (by omega) (by simp at hlen ⊢; omega)

/-- C7: when the cancellation flag becomes true at chunk iteration `k`
(within the input), the loop observes it at that iteration, stops
reading, skips the final-buffer flush, returns exactly the entries and
categories accumulated from the first `k` chunks, and the result
carries the cancelled marker (the sticky `_should_cancel` flag); no
exception is involved. -/
theorem claim_C7 (n k : Nat) (oracle : Nat → Bool) (bytes : List Nat)
    (hk : k ≤ (chunksOf n bytes).length) :
    (parseChunkedBytes n (fun j => decide (k ≤ j)) oracle bytes).cancelled = true ∧
    (parseChunkedBytes n (fun j => decide (k ≤ j)) oracle bytes).channels =
      (runChunks (pyDecodeIgnore (detectEncoding bytes)) oracle (fun _ => false)
        bytes.length 0 ((chunksOf n bytes).take k) initLState).ps.channels ∧
    (parseChunkedBytes n (fun j => decide (k ≤ j)) oracle bytes).categories =
      (runChunks (pyDecodeIgnore (detectEncoding bytes)) oracle (fun _ => false)
        bytes.length 0 ((chunksOf n bytes).take k) initLState).ps.categories := by
  unfold parseChunkedBytes
  rw [runChunks_cancelAt _ _ _ k (chunksOf n bytes) 0 initLState (Nat.zero_le k)
    (by simpa using hk)]
  unfold finalizeChunked
  dsimp only
  rw [if_neg (by simp)]
  exact ⟨rfl, rfl, rfl⟩

/-- Witness for C7: cancelling at the second chunk iteration of a
two-entry ASCII playlist read in 16-byte chunks keeps only the first
chunk's complete lines. -/
theorem claim_C7_witness :
    1 ≤ (chunksOf 16 ((chars "#EXTINF:-1,A\nu1\n#EXTINF:-1,B\nu2\n").map Char.toNat)).length ∧
    (parseChunkedBytes 16 (fun j => decide (1 ≤ j)) (fun _ => false)
      ((chars "#EXTINF:-1,A\nu1\n#EXTINF:-1,B\nu2\n").map Char.toNat)).cancelled = true :=
  ⟨by decide,
   (claim_C7 16 1 (fun _ => false)
     ((chars "#EXTINF:-1,A\nu1\n#EXTINF:-1,B\nu2\n").map Char.toNat) (by decide)).1⟩

/-! ## Claim C9: the final progress emission -/

/-- The progress-callback invocations performed by `_parse_content`
(source lines 304-356): that function contains no call to
`self.progress_callback` at all - neither during the loop nor at
completion - so the call trace of any run is empty.  (Contrast with
`_parse_content_with_progress`, whose trace is modelled in
`stepChunk`/`finalizeChunked`.) -/
def parseContentProgressCalls (lines : List Str) : List (Nat × Nat) :=
  lines.foldl (fun acc _ => acc) []

theorem parseContentProgressCalls_nil (lines : List Str) :
    parseContentProgressCalls lines = [] := by
  unfold parseContentProgressCalls
  induction lines with
  | nil => rfl
  | cons l t ih => exact ih

/-- Counterexample to C9 as stated: parsing from an already-split list
of content lines (`parse_m3u_from_content` / `_parse_content`) with a
progress sink attached invokes the sink zero times - there is no final
`(100, final_count)` call. -/
theorem claim_C9_counterexample :
    parseContentProgressCalls [chars "#EXTM3U"] = [] ∧
    ([] : List (Nat × Nat)) ≠ [(100, 0)] :=
  ⟨parseContentProgressCalls_nil _, by decide⟩

/-- C9 as amended: the guarantee holds for the chunked file parse - for
every chunk size, cancellation schedule, timer oracle and input, the
emission trace ends with exactly one final `(100, final_count)` entry,
even when zero entries were parsed - but the content-lines parse
(`_parse_content`) never invokes the sink at all. -/
theorem claim_C9_amended :
    (∀ (n : Nat) (cancel oracle : Nat → Bool) (bytes : List Nat),
      ∃ t, (parseChunkedBytes n cancel oracle bytes).trace =
        t ++ [(100, (parseChunkedBytes n cancel oracle bytes).processed)]) ∧
    (∀ lines : List Str, parseContentProgressCalls lines = []) :=
  ⟨fun _ _ _ _ => ⟨_, rfl⟩, parseContentProgressCalls_nil⟩

/-! ## Claim C8: the ingestion facade (`M3UParser.parse_m3u_from_file`)

The facade's collaborators are modelled as an environment record: the
existence check, the cache-manager presence flag (`enable_cache`, which
also controls whether a manager is constructed), the `load_cache`
result, the builder's result (the chunked parse, including the sticky
cancel flag), and the outcome of `save_cache` (its return value and
whether it raises). -/

structure FileEnv where
  fileExists : Bool
  enableCache : Bool
  cacheLoad : Option (List Entry × List (Str × List Entry))
  parseResult : ChunkResult
  saveOk : Bool
  saveRaises : Bool

/-- What a call to `parse_m3u_from_file` returns and does: the
returned `(channels, categories)` pair, the progress calls issued
directly by the facade (the instant-completion report on a hit), whether
the builder was invoked (i.e. the source file was read and parsed), and
whether `save_cache` was invoked. -/
structure FileParseOut where
  channels : List Entry
  categories : List (Str × List Entry)
  progressCalls : List (Nat × Nat)
  parsed : Bool
  saveAttempted : Bool
  deriving DecidableEq

/-- `parse_m3u_from_file` (source lines 47-119): missing file returns
`([], {})`; a cache hit reports `(100, len(channels))` once and returns
the cached data without touching the source; otherwise the builder runs
and its result is cached exactly when caching is on, the parse was not
cancelled, and at least one channel was produced.  A `save_cache`
failure only prints a warning (lines 109-110), so the returned result
does not depend on the save outcome. -/
def parse_m3u_from_file (env : FileEnv) : FileParseOut :=
  if ¬ env.fileExists then ⟨[], [], [], false, false⟩
  else
    match (if env.enableCache then env.cacheLoad else none) with
    | some (chs, cats) => ⟨chs, cats, [(100, chs.length)], false, false⟩
    | none =>
      ⟨env.parseResult.channels, env.parseResult.categories, [], true,
       env.enableCache && !env.parseResult.cancelled && !env.parseResult.channels.isEmpty⟩

/-- C8: with caching enabled and the file present, a cache hit reports
`(100, entry_count)` exactly once and returns the cached result without
parsing; a cache miss parses, and `save_cache` is invoked iff the parse
was not cancelled and produced at least one entry; and the returned
output never depends on the save outcome (a save failure is logged, not
propagated). -/
theorem claim_C8 (env : FileEnv) (hex : env.fileExists = true)
    (hcache : env.enableCache = true) :
    (∀ chs cats, env.cacheLoad = some (chs, cats) →
      parse_m3u_from_file env =
        ⟨chs, cats, [(100, chs.length)], false, false⟩) ∧
    (env.cacheLoad = none →
      parse_m3u_from_file env =
        ⟨env.parseResult.channels, env.parseResult.categories, [], true,
         !env.parseResult.cancelled && !env.parseResult.channels.isEmpty⟩) ∧
    (∀ b1 b2, parse_m3u_from_file { env with saveOk := b1, saveRaises := b2 } =
      parse_m3u_from_file env) := by
  refine ⟨?_, ?_, ?_⟩
  · intro chs cats hload
    unfold parse_m3u_from_file
    rw [if_neg (by simp [hex]), hcache]
    simp [hload]
  · intro hload
    unfold parse_m3u_from_file
    rw [if_neg (by simp [hex]), hcache]
    simp [hload, hcache]
  · intro b1 b2
    unfold parse_m3u_from_file
    rfl

/-- Witness for C8 at a concrete hit environment. -/
theorem claim_C8_witness :
    parse_m3u_from_file ⟨true, true, some ([[(chars "name", chars "A")]], []),
        ⟨[], [], 0, false, []⟩, true, false⟩ =
      ⟨[[(chars "name", chars "A")]], [], [(100, 1)], false, false⟩ :=
  (claim_C8 ⟨true, true, some ([[(chars "name", chars "A")]], []),
      ⟨[], [], 0, false, []⟩, true, false⟩ rfl rfl).1
    [[(chars "name", chars "A")]] [] rfl

end PyIPTV
